import Mathlib

/-!
Verification development for the `publish-directory` GitHub action
(`kontrolplane/publish-directory`, single Go source file `main.go`).

The program is a linear orchestration over the local filesystem and a git
library.  We shallowly embed it as follows:

* The filesystem is a rose tree (`Node` / `Entries`): directories carry a
  mode and a name-indexed list of children, files carry their byte content
  (bytes as `Nat`) and a mode.  Paths are component lists (`Path`).
  Directory entries are stored in the order the OS returns them from
  `ReadDir` / `readDirNames` (Go sorts them lexically; none of the
  properties below depends on the particular order, so the stored order
  stands for that lexical order).
* OS and git calls that can fail for external reasons (I/O errors,
  network) take their failure behaviour from an explicit environment
  model: an `Oracle` of per-path I/O failures and a `GitOps` record of
  git-library call results.  The pure success semantics of each primitive
  is spelled out against the tree.
* Observable effects (temporary-directory creation and removal, the clone
  attempt, staging, commit, push, every filesystem write) are logged as
  `Event`s in a `PubState` threaded through the run, and stdout lines are
  collected in `PubState.out`.

Each function named after one in `main.go` (`copyFileOp` for `copyFile`,
`copyDirectory`, `cleanWorkingTree`, `cloneOrCreateBranch`,
`publishDirectory`, `validateConfig`, `getCurrentRepository`, `mainRun`
for `main`) is a direct transcription of that function.
-/

namespace PubDir

/-- A filesystem path, as a list of name components. -/
abbrev Path := List String

/-- Error kinds surfaced by the modelled OS and git primitives. -/
inductive GErr where
  | ioErr
  | notExist
  | notADir
  | isADir
  | noSuchFile
  | relErr
  | envNotSet
  | gitErr
  deriving DecidableEq

mutual
/-- A filesystem node: a regular file (content bytes and permission mode)
or a directory (mode and named children). -/
inductive Node where
  | file (content : List Nat) (mode : Nat) : Node
  | dir (mode : Nat) (entries : Entries) : Node

/-- The children of a directory, in the order the OS lists them. -/
inductive Entries where
  | nil : Entries
  | cons (name : String) (child : Node) (rest : Entries) : Entries
end

/-- First entry with the given name, if any. -/
def getEntry : Entries → String → Option Node
  | .nil, _ => none
  | .cons m t rest, n => if m == n then some t else getEntry rest n

/-- Replace the first entry with the given name, or append a new one. -/
def putEntry : Entries → String → Node → Entries
  | .nil, n, t => .cons n t .nil
  | .cons m c rest, n, t =>
    if m == n then .cons m t rest else .cons m c (putEntry rest n t)

/-- Delete every entry with the given name. -/
def delEntry : Entries → String → Entries
  | .nil, _ => .nil
  | .cons m c rest, n =>
    if m == n then delEntry rest n else .cons m c (delEntry rest n)

/-- The listed names, in order. -/
def namesList : Entries → List String
  | .nil => []
  | .cons m _ rest => m :: namesList rest

/-- Permission mode of a node (`FileInfo.Mode()`). -/
def Node.mode : Node → Nat
  | .file _ m => m
  | .dir m _ => m

/-- Whether a node is a directory (`FileInfo.IsDir()`). -/
def Node.isDir : Node → Bool
  | .file _ _ => false
  | .dir _ _ => true

/-- Resolve a path below a node. -/
def Node.find : Node → Path → Option Node
  | t, [] => some t
  | .file _ _, _ :: _ => none
  | .dir _ es, n :: rest =>
    match getEntry es n with
    | some c => c.find rest
    | none => none

/-- Replace (or, at the last component, insert) the subtree at a path.
No-op when an intermediate component is missing or is a file. -/
def Node.setAt : Node → Path → Node → Node
  | _, [], t => t
  | .file c m, _ :: _, _ => .file c m
  | .dir m es, [n], t => .dir m (putEntry es n t)
  | .dir m es, n :: rest, t =>
    match getEntry es n with
    | some c => .dir m (putEntry es n (c.setAt rest t))
    | none => .dir m es

/-- `os.RemoveAll`: delete the subtree at a path; succeeds (as a no-op)
when the path does not exist. -/
def removeAt : Node → Path → Node
  | t, [] => t
  | .file c m, _ :: _ => .file c m
  | .dir m es, [n] => .dir m (delEntry es n)
  | .dir m es, n :: rest =>
    match getEntry es n with
    | some c => .dir m (putEntry es n (removeAt c rest))
    | none => .dir m es

/-- `os.Create`: truncate an existing regular file (keeping its mode), or
create a fresh one with mode `0o666`; fails on a directory or when the
parent path is missing. -/
def createFile : Node → Path → Except GErr Node
  | _, [] => .error .isADir
  | .file _ _, _ :: _ => .error .notADir
  | .dir m es, [n] =>
    match getEntry es n with
    | some (.dir _ _) => .error .isADir
    | some (.file _ fm) => .ok (.dir m (putEntry es n (.file [] fm)))
    | none => .ok (.dir m (putEntry es n (.file [] 438)))
  | .dir m es, n :: rest =>
    match getEntry es n with
    | some c =>
      match createFile c rest with
      | .ok c2 => .ok (.dir m (putEntry es n c2))
      | .error e => .error e
    | none => .error .noSuchFile

/-- Overwrite the content of the regular file at a path (the write half of
`io.Copy`); no-op when the path does not name a regular file. -/
def writeContent : Node → Path → List Nat → Node
  | t, [], _ => t
  | .file c m, _ :: _, _ => .file c m
  | .dir m es, [n], content =>
    match getEntry es n with
    | some (.file _ fm) => .dir m (putEntry es n (.file content fm))
    | _ => .dir m es
  | .dir m es, n :: rest, content =>
    match getEntry es n with
    | some c => .dir m (putEntry es n (writeContent c rest content))
    | none => .dir m es

/-- `os.Chmod`: set the mode of the node at a path; no-op when missing. -/
def chmodAt : Node → Path → Nat → Node
  | .file c _, [], m2 => .file c m2
  | .dir _ es, [], m2 => .dir m2 es
  | .file c m, _ :: _, _ => .file c m
  | .dir m es, n :: rest, m2 =>
    match getEntry es n with
    | some c => .dir m (putEntry es n (chmodAt c rest m2))
    | none => .dir m es

/-- `os.MkdirAll`: create the directory at a path together with any
missing parents (new directories get the given mode); existing
directories are left untouched, an intermediate or final regular file is
an error.  The tree component of the result keeps whatever was created
before a failure, matching the real call. -/
def mkdirAllP : Node → Path → Nat → Except GErr Unit × Node
  | .file c m, _, _ => (.error .notADir, .file c m)
  | .dir m es, [], _ => (.ok (), .dir m es)
  | .dir m es, n :: rest, mode =>
    match getEntry es n with
    | some c =>
      match mkdirAllP c rest mode with
      | (r, c2) => (r, .dir m (putEntry es n c2))
    | none =>
      match mkdirAllP (.dir mode .nil) rest mode with
      | (r, c2) => (r, .dir m (putEntry es n c2))

/-- Per-path I/O failure behaviour of the operating system during one
run: each field tells whether the corresponding primitive fails at a
given path.  The pure tree semantics above describes the successful
case. -/
structure Oracle where
  openFails : Path → Bool
  createFails : Path → Bool
  copyFails : Path → Bool
  statFails : Path → Bool
  chmodFails : Path → Bool
  mkdirFails : Path → Bool
  readDirFails : Path → Bool
  lstatFails : Path → Bool
  removeAllFails : Path → Bool

/-- The fault-free operating system. -/
def idealOracle : Oracle :=
  ⟨fun _ => false, fun _ => false, fun _ => false, fun _ => false,
   fun _ => false, fun _ => false, fun _ => false, fun _ => false,
   fun _ => false⟩

/-- Observable side effects of a run, in order of occurrence. -/
inductive Event where
  | mkdirTemp (p : Path)
  | removeAllTemp (p : Path)
  | cloneAttempt (url : String) (branch : String) (dir : Path)
  | gitInit (dir : Path)
  | checkoutCreate (branch : String)
  | createRemote (name : String) (url : String)
  | fsRemove (p : Path)
  | fsMkdir (p : Path)
  | fsCreate (p : Path)
  | fsChmod (p : Path)
  | stage
  | commit
  | push
  deriving DecidableEq

/-- Whether an event is a plain filesystem write. -/
def Event.isFs : Event → Bool
  | .fsRemove _ | .fsMkdir _ | .fsCreate _ | .fsChmod _ => true
  | _ => false

/-- The path a filesystem-write event touches (`[]` for other events). -/
def Event.epath : Event → Path
  | .fsRemove p | .fsMkdir p | .fsCreate p | .fsChmod p => p
  | _ => []

/-- State threaded through a run: the filesystem, the event log, and the
stdout lines printed so far. -/
structure PubState where
  fs : Node
  events : List Event
  out : List String

/-- `filepath.Rel`, restricted to the only shape the walk produces: the
base is a prefix of the target, and the relative path is the remainder
(`Rel(source, source)` is `.`, modelled as `[]`). -/
def relPath (base target : Path) : Option Path :=
  if base.isPrefixOf target then some (target.drop base.length) else none

/-- `FileInfo` as the walk callback sees it. -/
structure Info where
  name : String
  isDir : Bool
  mode : Nat

/-- Outcome of one walk-callback call: continue, `filepath.SkipDir`, or a
real error. -/
inductive WalkSignal where
  | ok
  | skipDir
  | err (e : GErr)
  deriving DecidableEq

/-- A walk callback (`filepath.WalkFunc`): receives the visited path, its
`FileInfo`, and the error slot Go passes for failed `readDirNames` or
`lstat` calls. -/
abbrev WalkFn := Path → Info → Option GErr → PubState → WalkSignal × PubState

/-- `os.MkdirAll` as called by the walk callback, with its I/O failure
taken from the oracle and the successful write logged. -/
def mkdirAllOp (o : Oracle) (p : Path) (mode : Nat) (st : PubState) :
    WalkSignal × PubState :=
  if o.mkdirFails p then (.err .ioErr, st)
  else
    match mkdirAllP st.fs p mode with
    | (.error e, fs2) => (.err e, ⟨fs2, st.events, st.out⟩)
    | (.ok _, fs2) => (.ok, ⟨fs2, st.events ++ [.fsMkdir p], st.out⟩)

/-- `copyFile(source, destination)` from `main.go`:
open the source, `os.Create` the destination (truncating it), `io.Copy`
the bytes, then `os.Stat` the source and `os.Chmod` the destination to
its mode.  `io.Copy` reads the source through the handle opened at the
start, so it sees the content as it is after the `os.Create` truncation
(relevant exactly when destination and source are the same file). -/
def copyFileOp (o : Oracle) (source destination : Path) (st : PubState) :
    WalkSignal × PubState :=
  if o.openFails source then (.err .ioErr, st)
  else
    match st.fs.find source with
    | some (.file _ _) =>
      if o.createFails destination then (.err .ioErr, st)
      else
        match createFile st.fs destination with
        | .error e => (.err e, st)
        | .ok fs1 =>
          let st1 : PubState := ⟨fs1, st.events ++ [.fsCreate destination], st.out⟩
          if o.copyFails source then (.err .ioErr, st1)
          else
            let content :=
              match fs1.find source with
              | some (.file c _) => c
              | _ => []
            let st2 : PubState := ⟨writeContent fs1 destination content, st1.events, st1.out⟩
            if o.statFails source then (.err .ioErr, st2)
            else
              match st2.fs.find source with
              | some sourceNode =>
                if o.chmodFails destination then (.err .ioErr, st2)
                else
                  (.ok, ⟨chmodAt st2.fs destination sourceNode.mode,
                         st2.events ++ [.fsChmod destination], st2.out⟩)
              | none => (.err .noSuchFile, st2)
    | some (.dir _ _) => (.err .isADir, st)
    | none => (.err .noSuchFile, st)

/-- The anonymous walk callback inside `copyDirectory`:
propagate walk errors, skip directories named `.git`, compute the
relative path and the target path, then `MkdirAll` for directories and
`copyFile` for files.  The Go source computes
`targetPath := filepath.Join(source, relativePath)` - it joins `source`,
not `destination`; `destination` is never used.  The transcription keeps
that behaviour. -/
def copyWalkFn (o : Oracle) (source destination : Path) : WalkFn :=
  fun path info err st =>
    match err with
    | some e => (.err e, st)
    | none =>
      if info.isDir && info.name == ".git" then (.skipDir, st)
      else
        match relPath source path with
        | none => (.err .relErr, st)
        | some relativePath =>
          let targetPath := source ++ relativePath
          if info.isDir then mkdirAllOp o targetPath info.mode st
          else copyFileOp o path targetPath st

mutual
/-- Go `filepath.walk` on the tree as it stands when the walk starts (the
callback used in this program never adds or removes directory entries, so
the start-of-walk snapshot determines every directory listing the real
walk reads): call the callback on the visited node, then, for a directory
not skipped by the callback, descend into its children. -/
def walkRec (fn : WalkFn) (o : Oracle) (path : Path) (name : String)
    (t : Node) (s : PubState) : WalkSignal × PubState :=
  match t with
  | .file _ mode => fn path ⟨name, false, mode⟩ none s
  | .dir mode es =>
    if o.readDirFails path then fn path ⟨name, true, mode⟩ (some .ioErr) s
    else
      match fn path ⟨name, true, mode⟩ none s with
      | (.err e, s1) => (.err e, s1)
      | (.skipDir, s1) => (.skipDir, s1)
      | (.ok, s1) => walkEntries fn o path es s1

/-- The loop over a directory listing inside Go `filepath.walk`: `lstat`
each child (reporting an `lstat` failure to the callback, which may
swallow it), recurse, and translate `SkipDir` from a directory child into
skipping that child only. -/
def walkEntries (fn : WalkFn) (o : Oracle) (path : Path)
    (es : Entries) (s : PubState) : WalkSignal × PubState :=
  match es with
  | .nil => (.ok, s)
  | .cons n t rest =>
    if o.lstatFails (path ++ [n]) then
      match fn (path ++ [n]) ⟨n, false, 0⟩ (some .ioErr) s with
      | (.err e, s1) => (.err e, s1)
      | (.skipDir, s1) => walkEntries fn o path rest s1
      | (.ok, s1) => walkEntries fn o path rest s1
    else
      match walkRec fn o (path ++ [n]) n t s with
      | (.err e, s1) => (.err e, s1)
      | (.skipDir, s1) =>
        match t with
        | .dir _ _ => walkEntries fn o path rest s1
        | .file _ _ => (.skipDir, s1)
      | (.ok, s1) => walkEntries fn o path rest s1
end

/-- `copyDirectory(source, destination)` from `main.go`:
`filepath.Walk(source, ...)` with the callback above.  `filepath.Walk`
first `lstat`s the root (handing a failure to the callback) and converts
a top-level `SkipDir` into success. -/
def copyDirectory (o : Oracle) (source destination : Path) (st : PubState) :
    Except GErr Unit × PubState :=
  if o.lstatFails source then
    match copyWalkFn o source destination source ⟨"", false, 0⟩ (some .ioErr) st with
    | (.err e, st1) => (.error e, st1)
    | (.skipDir, st1) => (.ok (), st1)
    | (.ok, st1) => (.ok (), st1)
  else
    match st.fs.find source with
    | none =>
      match copyWalkFn o source destination source ⟨"", false, 0⟩ (some .notExist) st with
      | (.err e, st1) => (.error e, st1)
      | (.skipDir, st1) => (.ok (), st1)
      | (.ok, st1) => (.ok (), st1)
    | some t =>
      match walkRec (copyWalkFn o source destination) o source (source.getLastD "") t st with
      | (.err e, st1) => (.error e, st1)
      | (.skipDir, st1) => (.ok (), st1)
      | (.ok, st1) => (.ok (), st1)

/-- `os.ReadDir`: the names listed in the directory, in OS order. -/
def readDirNames (o : Oracle) (fs : Node) (dir : Path) :
    Except GErr (List String) :=
  if o.readDirFails dir then .error .ioErr
  else
    match fs.find dir with
    | some (.dir _ es) => .ok (namesList es)
    | some (.file _ _) => .error .notADir
    | none => .error .noSuchFile

/-- The loop body of `cleanWorkingTree`: for each listed name, skip
`.git`, otherwise `os.RemoveAll` the entry, aborting on the first
failure. -/
def cleanLoop (o : Oracle) (dir : Path) :
    List String → PubState → Except GErr Unit × PubState
  | [], st => (.ok (), st)
  | n :: rest, st =>
    if n == ".git" then cleanLoop o dir rest st
    else if o.removeAllFails (dir ++ [n]) then (.error .ioErr, st)
    else
      cleanLoop o dir rest
        ⟨removeAt st.fs (dir ++ [n]), st.events ++ [.fsRemove (dir ++ [n])], st.out⟩

/-- `cleanWorkingTree(dir)` from `main.go`: read the top-level entries of
`dir` and delete each one except `.git`. -/
def cleanWorkingTree (o : Oracle) (dir : Path) (st : PubState) :
    Except GErr Unit × PubState :=
  match readDirNames o st.fs dir with
  | .error e => (.error e, st)
  | .ok names => cleanLoop o dir names st

/-- Handle to an open repository returned by the git library. -/
abbrev Repo := Nat

/-- Results of the git-library calls of one run, supplied by the
environment model: `PlainClone`, `PlainInit`, `Worktree` (both call
sites), `Checkout`, `CreateRemote`, `AddWithOptions`,
`Status().IsClean()`, `Commit`, `Push`, and `os.MkdirTemp`.
`cloneTree` is the worktree a successful clone materialises (including
its `.git` entry). -/
structure GitOps where
  mkdirTempRes : Except GErr Path
  cloneRes : Except GErr Repo
  cloneTree : Node
  worktreeRes : Except GErr Unit
  initRes : Except GErr Repo
  initWorktreeRes : Except GErr Unit
  checkoutRes : Except GErr Unit
  remoteRes : Except GErr Unit
  addRes : Except GErr Unit
  statusRes : Except GErr Bool
  commitRes : Except GErr String
  pushRes : Except GErr Unit

/-- Ambient process environment: the value of the
`GITHUB_REPOSITORY` environment variable (empty when unset). -/
structure OsEnv where
  githubRepository : String

/-- `getCurrentRepository` from `main.go`: read `GITHUB_REPOSITORY`,
failing when it is unset. -/
def getCurrentRepository (env : OsEnv) : Except GErr String :=
  if env.githubRepository == "" then .error .envNotSet
  else .ok env.githubRepository

/-- `cloneOrCreateBranch(gitURL, branch, targetDir, auth)` from
`main.go`: attempt a shallow, single-branch `PlainClone` of the branch;
on success return that repository.  On any clone failure, print the
branch-missing notice, `PlainInit` a fresh repository at the target
directory (which creates its `.git` entry), check the branch out as a
new branch, and register the remote named origin; each of those
follow-up failures is fatal. -/
def cloneOrCreateBranch (ops : GitOps) (gitURL branch : String)
    (targetDir : Path) (st : PubState) : Except GErr Repo × PubState :=
  let st0 : PubState := ⟨st.fs, st.events ++ [.cloneAttempt gitURL branch targetDir], st.out⟩
  match ops.cloneRes with
  | .ok repo => (.ok repo, ⟨st0.fs.setAt targetDir ops.cloneTree, st0.events, st0.out⟩)
  | .error _ =>
    let st1 : PubState :=
      ⟨st0.fs,
       st0.events ++ [.gitInit targetDir],
       st0.out ++ ["Branch \x27" ++ branch ++ "\x27 doesn\x27t exist, creating new orphan branch"]⟩
    match ops.initRes with
    | .error e => (.error e, st1)
    | .ok repo =>
      let st2 : PubState :=
        ⟨st1.fs.setAt (targetDir ++ [".git"]) (.dir 448 .nil), st1.events, st1.out⟩
      match ops.initWorktreeRes with
      | .error e => (.error e, st2)
      | .ok _ =>
        let st3 : PubState := ⟨st2.fs, st2.events ++ [.checkoutCreate branch], st2.out⟩
        match ops.checkoutRes with
        | .error e => (.error e, st3)
        | .ok _ =>
          let st4 : PubState := ⟨st3.fs, st3.events ++ [.createRemote "origin" gitURL], st3.out⟩
          match ops.remoteRes with
          | .error e => (.error e, st4)
          | .ok _ => (.ok repo, st4)

/-- The remote URL built by `publishDirectory`. -/
def buildURL (repository : String) : String :=
  "https://github.com/" ++ repository ++ ".git"

/-- The repository-identifier resolution at the top of
`publishDirectory`: the configured value, or `getCurrentRepository`
when it is empty. -/
structure Config where
  Repository : String
  Branch : String
  Folder : Path
  CommitUser : String
  CommitEmail : String
  CommitMessage : String
  GithubToken : String
  GithubRepository : String

def resolveRepository (cfg : Config) (env : OsEnv) : Except GErr String :=
  if cfg.Repository == "" then getCurrentRepository env
  else .ok cfg.Repository

/-- The part of `publishDirectory` that runs after the temporary
directory exists (the scope guarded by `defer os.RemoveAll`): clone or
create the branch, get the worktree, clean the working tree, copy the
folder, stage everything, compute the status, and either stop on a clean
tree or commit and push. -/
def publishBody (ops : GitOps) (o : Oracle) (cfg : Config) (url : String)
    (tmp : Path) (st : PubState) : Except GErr Unit × PubState :=
  match cloneOrCreateBranch ops url cfg.Branch tmp st with
  | (.error e, stE) => (.error e, stE)
  | (.ok _, stA) =>
    match ops.worktreeRes with
    | .error e => (.error e, stA)
    | .ok _ =>
      match cleanWorkingTree o tmp stA with
      | (.error e, stE) => (.error e, stE)
      | (.ok _, stB) =>
        match copyDirectory o cfg.Folder tmp stB with
        | (.error e, stE) => (.error e, stE)
        | (.ok _, stC) =>
          let stD : PubState := ⟨stC.fs, stC.events ++ [.stage], stC.out⟩
          match ops.addRes with
          | .error e => (.error e, stD)
          | .ok _ =>
            match ops.statusRes with
            | .error e => (.error e, stD)
            | .ok isClean =>
              if isClean then
                (.ok (), ⟨stD.fs, stD.events, stD.out ++ ["No changes to commit"]⟩)
              else
                match ops.commitRes with
                | .error e => (.error e, stD)
                | .ok commitHash =>
                  let stF : PubState :=
                    ⟨stD.fs,
                     stD.events ++ [.commit] ++ [.push],
                     stD.out ++ ["Created commit: " ++ commitHash]⟩
                  match ops.pushRes with
                  | .error e => (.error e, stF)
                  | .ok _ => (.ok (), stF)

/-- `publishDirectory(cfg)` from `main.go`: resolve the repository
identifier, create the uniquely-named temporary directory
(`os.MkdirTemp`, mode `0o700`), build the remote URL, run the body, and
remove the temporary directory on every exit path (the `defer`). -/
def publishDirectory (ops : GitOps) (o : Oracle) (env : OsEnv)
    (cfg : Config) (st0 : PubState) : Except GErr Unit × PubState :=
  match resolveRepository cfg env with
  | .error e => (.error e, st0)
  | .ok repository =>
    match ops.mkdirTempRes with
    | .error e => (.error e, st0)
    | .ok temporaryDirectory =>
      match mkdirAllP st0.fs temporaryDirectory 448 with
      | (.error e, _) => (.error e, st0)
      | (.ok _, fs1) =>
        let st1 : PubState := ⟨fs1, st0.events ++ [.mkdirTemp temporaryDirectory], st0.out⟩
        match publishBody ops o cfg (buildURL repository) temporaryDirectory st1 with
        | (r, st2) =>
          (r, ⟨removeAt st2.fs temporaryDirectory,
               st2.events ++ [.removeAllTemp temporaryDirectory], st2.out⟩)

/-- Result of `os.Stat` on a path, as far as `validateConfig` looks at
it: the path exists (whatever its readability), the stat failed with a
not-exist error, or the stat failed with any other error (for example
permission denied). -/
inductive StatRes where
  | found
  | errNotExist
  | errOther
  deriving DecidableEq

/-- `validateConfig` from `main.go`: stat the configured folder and fail
exactly when `os.IsNotExist` holds of the stat error.  (`os.IsNotExist`
is false both for a nil error and for any other error kind.) -/
def validateConfig (statF : Path → StatRes) (cfg : Config) : Except GErr Unit :=
  match statF cfg.Folder with
  | .errNotExist => .error .notExist
  | _ => .ok ()

/-- Outcome of the whole process. -/
structure MainResult where
  exitCode : Nat
  out : List String
  errOut : List String

/-- `main` from `main.go`: load the configuration (the `env.Parse`
result is supplied by the environment model), validate it, publish, and
report: any failure exits 1 with a message on stderr, success prints the
final success line and exits 0. -/
def mainRun (loadRes : Except GErr Config) (statF : Path → StatRes)
    (ops : GitOps) (o : Oracle) (env : OsEnv) (fs0 : Node) : MainResult :=
  match loadRes with
  | .error _ => ⟨1, [], ["Failed to load configuration"]⟩
  | .ok cfg =>
    match validateConfig statF cfg with
    | .error _ => ⟨1, [], ["Configuration error"]⟩
    | .ok _ =>
      match publishDirectory ops o env cfg ⟨fs0, [], []⟩ with
      | (.error _, st) => ⟨1, st.out, ["Error"]⟩
      | (.ok _, st) => ⟨0, st.out ++ ["Successfully published directory to branch"], []⟩

/-! ### Derived notions used by the statements -/

/-- Concatenation of directory listings (used to split a listing into
the part before and after a failing entry). -/
def Entries.append : Entries → Entries → Entries
  | .nil, e2 => e2
  | .cons n t rest, e2 => .cons n t (rest.append e2)

/-- No two entries share a name. -/
def nodupNames : Entries → Bool
  | .nil => true
  | .cons m _ rest => (!(namesList rest).contains m) && nodupNames rest

mutual
/-- Well-formedness of a tree as an on-disk filesystem: every directory
lists each name at most once. -/
def Node.wf : Node → Bool
  | .file _ _ => true
  | .dir _ es => nodupNames es && Entries.wfAll es

def Entries.wfAll : Entries → Bool
  | .nil => true
  | .cons _ t rest => t.wf && Entries.wfAll rest
end

mutual
/-- The relative paths (with respect to the visited node) at which the
copy callback performs filesystem operations during a walk of the given
node under the given name: the node itself, except for a directory named
`.git`, plus, for directories, the visited descendants. -/
def visitedRels (name : String) : Node → List Path
  | .file _ _ => [[]]
  | .dir _ es => if name == ".git" then [] else [] :: entryRels es

def entryRels : Entries → List Path
  | .nil => []
  | .cons n t rest => (visitedRels n t).map (fun r => n :: r) ++ entryRels rest
end

/-- What the walk of a node guarantees about each event it appends: it
is a filesystem write and, when the walk root lies below `source`, it
touches the visited node or one of its visited descendants. -/
def EvProp (source path : Path) (rels : List Path) (ev : Event) : Prop :=
  ev.isFs = true ∧
    (source.isPrefixOf path = true → ∃ r ∈ rels, ev.epath = path ++ r)

/-! ### Concrete fixtures for the claim witnesses -/

/-- Root filesystem for the sanitizer witness: a directory `d` holding a
`.git` directory and a file `a`, plus an unrelated sibling `b`. -/
def wFs5 : Node :=
  .dir 493 (.cons "d"
    (.dir 493 (.cons ".git" (.dir 448 .nil)
      (.cons "a" (.file [1] 420) (.cons "b" (.file [2] 420) .nil)))) .nil)

def wSt5 : PubState := ⟨wFs5, [], []⟩

/-- An operating system whose `RemoveAll` fails exactly at `d/b`. -/
def wOracle5 : Oracle :=
  { idealOracle with removeAllFails := fun p => p == ["d", "b"] }

/-- A generic configuration (repository and branch empty, folder `f`). -/
def wCfgA : Config := ⟨"", "", ["f"], "u", "e", "m", "t", ""⟩

/-- Filesystem for the mirror witness: empty `dst`, and `src` holding
one two-byte file. -/
def wFs1 : Node :=
  .dir 493 (.cons "dst" (.dir 493 .nil)
    (.cons "src" (.dir 493 (.cons "a.txt" (.file [104, 105] 420) .nil)) .nil))

def wSt1 : PubState := ⟨wFs1, [], []⟩

/-- Filesystem holding the source folder `work/site` with one file. -/
def wFsSite : Node :=
  .dir 493 (.cons "work"
    (.dir 493 (.cons "site"
      (.dir 493 (.cons "index.html" (.file [60, 104] 420) .nil)) .nil)) .nil)

def wCfgSite : Config :=
  ⟨"kp/site", "gh-pages", ["work", "site"], "bot", "bot@x", "msg", "tok", ""⟩

/-- Worktree produced by a successful clone: `.git` plus one stale file. -/
def wCloneTree : Node :=
  .dir 493 (.cons ".git" (.dir 448 .nil) (.cons "old.txt" (.file [111] 420) .nil))

/-- Git library results where every call succeeds and the staged tree is
dirty. -/
def wOpsDirty : GitOps :=
  ⟨.ok ["tmp", "pub1"], .ok 1, wCloneTree, .ok (), .ok 2, .ok (), .ok (),
   .ok (), .ok (), .ok false, .ok "abc123", .ok ()⟩

/-- Same, but the staged tree is clean. -/
def wOpsClean : GitOps := { wOpsDirty with statusRes := .ok true }

/-- Same, but the clone fails. -/
def wOpsCloneErr : GitOps := { wOpsDirty with cloneRes := .error .gitErr }

def wEnvAmb : OsEnv := ⟨"amb/repo"⟩

def wEnvNone : OsEnv := ⟨""⟩

/-- A configuration with an explicit repository and an empty branch. -/
def wCfg7 : Config := ⟨"kp/x", "", ["data"], "u", "e", "m", "t", ""⟩

/-- A filesystem holding the source folder `data` with one file. -/
def wFsData : Node :=
  .dir 493 (.cons "data" (.dir 493 (.cons "a.txt" (.file [104] 420) .nil)) .nil)

def wStData : PubState := ⟨wFsData, [], []⟩

/-- A configuration with no explicit repository. -/
def wCfgNoRepo : Config := ⟨"", "rel", ["data"], "u", "e", "m", "t", ""⟩

/-- Source tree for the nested-`.git` witness: `sub` holds a `.git`
directory (with a file inside) next to a regular file. -/
def wT9 : Node :=
  .dir 493 (.cons "sub"
    (.dir 493 (.cons ".git" (.dir 448 (.cons "HEAD" (.file [1] 420) .nil))
      (.cons "x.txt" (.file [2] 420) .nil))) .nil)

def wFs9 : Node := .dir 493 (.cons "s" wT9 .nil)

def wSt9 : PubState := ⟨wFs9, [], []⟩

/-- Source tree for the abort witness: two files under `s`. -/
def wT8 : Node :=
  .dir 493 (.cons "a.txt" (.file [1] 420) (.cons "b.txt" (.file [2] 420) .nil))

def wFs8 : Node := .dir 493 (.cons "s" wT8 .nil)

def wSt8 : PubState := ⟨wFs8, [], []⟩

/-- An operating system whose `Create` fails exactly at `s/b.txt`. -/
def wOracle8 : Oracle :=
  { idealOracle with createFails := fun p => p == ["s", "b.txt"] }

def wEntriesA : Entries := .cons "a.txt" (.file [1] 420) .nil

def wEntriesB : Entries := .cons "b.txt" (.file [2] 420) .nil

/-! ### Induction principles for the mutual filesystem tree -/

theorem nodeEntriesInduction (P : Node → Prop) (Q : Entries → Prop)
    (hfile : ∀ c m, P (.file c m))
    (hdir : ∀ m es, Q es → P (.dir m es))
    (hnil : Q .nil)
    (hcons : ∀ n t rest, P t → Q rest → Q (.cons n t rest)) :
    (∀ t, P t) ∧ (∀ es, Q es) :=
  ⟨fun t => @Node.rec P Q hfile hdir hnil (fun n t rest ht hrest => hcons n t rest ht hrest) t,
   fun es => @Entries.rec P Q hfile hdir hnil (fun n t rest ht hrest => hcons n t rest ht hrest) es⟩

theorem entriesInduction (Q : Entries → Prop)
    (hnil : Q .nil)
    (hcons : ∀ n t rest, Q rest → Q (.cons n t rest)) :
    ∀ es, Q es :=
  fun es =>
    @Entries.rec (fun _ => True) Q (fun _ _ => trivial) (fun _ _ _ => trivial)
      hnil (fun n t rest _ hrest => hcons n t rest hrest) es

/-! ### Entry-list lemmas -/

theorem getEntry_putEntry_self (n : String) (t : Node) :
    ∀ es, getEntry (putEntry es n t) n = some t := by
  intro es
  induction es using entriesInduction with
  | hnil => simp [putEntry, getEntry]
  | hcons m c rest ih =>
    by_cases h : m = n
    · subst h; simp [putEntry, getEntry]
    · simp [putEntry, getEntry, h, ih]

theorem getEntry_putEntry_ne (n p : String) (t : Node) (hne : p ≠ n) :
    ∀ es, getEntry (putEntry es n t) p = getEntry es p := by
  intro es
  have hnp : ¬n = p := fun h => hne h.symm
  induction es using entriesInduction with
  | hnil => simp [putEntry, getEntry, hnp]
  | hcons m c rest ih =>
    by_cases h : m = n
    · subst h; simp [putEntry, getEntry, hnp]
    · simp [putEntry, getEntry, h, ih]

theorem getEntry_delEntry_self (n : String) :
    ∀ es, getEntry (delEntry es n) n = none := by
  intro es
  induction es using entriesInduction with
  | hnil => simp [delEntry, getEntry]
  | hcons m c rest ih =>
    by_cases h : m = n
    · simp [delEntry, h, ih]
    · simp [delEntry, getEntry, h, ih]

theorem getEntry_delEntry_ne (n p : String) (hne : p ≠ n) :
    ∀ es, getEntry (delEntry es n) p = getEntry es p := by
  intro es
  have hnp : ¬n = p := fun h => hne h.symm
  induction es using entriesInduction with
  | hnil => simp [delEntry, getEntry]
  | hcons m c rest ih =>
    by_cases h : m = n
    · subst h; simp [delEntry, getEntry, ih, hnp]
    · simp [delEntry, getEntry, h, ih]

theorem getEntry_none_iff (n : String) :
    ∀ es, getEntry es n = none ↔ n ∉ namesList es := by
  intro es
  induction es using entriesInduction with
  | hnil => simp [getEntry, namesList]
  | hcons m c rest ih =>
    by_cases h : m = n
    · subst h; simp [getEntry, namesList]
    · have hnm : ¬n = m := fun h2 => h h2.symm
      simp [getEntry, namesList, h, ih, hnm]

/-! ### Path-resolution lemmas -/

theorem find_append (p q : Path) :
    ∀ t : Node, t.find (p ++ q) = (t.find p).bind (fun c => c.find q) := by
  induction p with
  | nil => intro t; simp [Node.find]
  | cons n rest ih =>
    intro t
    match t with
    | .file c m => simp [Node.find]
    | .dir m es =>
      simp only [List.cons_append, Node.find]
      match getEntry es n with
      | some c => simp [ih]
      | none => simp

/-- Reduction of `removeAt` on a directory at a path of length at least
two (the pattern match needs the tail shape). -/
theorem removeAt_cons (m : Nat) (es : Entries) (d : String) (q : Path) (hq : q ≠ []) :
    removeAt (.dir m es) (d :: q) =
      (match getEntry es d with
       | some c => .dir m (putEntry es d (removeAt c q))
       | none => .dir m es) := by
  match q with
  | [] => exact absurd rfl hq
  | x :: xs => rfl

theorem find_removeAt_self (n : String) :
    ∀ (dir : Path) (fs : Node), (removeAt fs (dir ++ [n])).find (dir ++ [n]) = none := by
  intro dir
  induction dir with
  | nil =>
    intro fs
    match fs with
    | .file c m => simp [removeAt, Node.find]
    | .dir m es => simp [removeAt, Node.find, getEntry_delEntry_self]
  | cons d rest ih =>
    intro fs
    match fs with
    | .file c m => simp [removeAt, Node.find]
    | .dir m es =>
      have hq : rest ++ [n] ≠ [] := by simp
      simp only [List.cons_append]
      rw [removeAt_cons m es d (rest ++ [n]) hq]
      cases h : getEntry es d with
      | some c =>
        simp only [Node.find, getEntry_putEntry_self]
        exact ih c
      | none => simp [Node.find, h]

theorem find_removeAt_ne (n p : String) (hne : p ≠ n) :
    ∀ (dir : Path) (fs : Node),
      (removeAt fs (dir ++ [n])).find (dir ++ [p]) = fs.find (dir ++ [p]) := by
  intro dir
  induction dir with
  | nil =>
    intro fs
    match fs with
    | .file c m => simp [removeAt, Node.find]
    | .dir m es => simp [removeAt, Node.find, getEntry_delEntry_ne n p hne]
  | cons d rest ih =>
    intro fs
    match fs with
    | .file c m => simp [removeAt, Node.find]
    | .dir m es =>
      have hq : rest ++ [n] ≠ [] := by simp
      simp only [List.cons_append]
      rw [removeAt_cons m es d (rest ++ [n]) hq]
      cases h : getEntry es d with
      | some c =>
        simp only [Node.find, getEntry_putEntry_self, h]
        exact ih c
      | none => simp [Node.find, h]

/-! ### Lemmas about the working-tree sanitizer -/

theorem cleanLoop_find_none (o : Oracle) (dir : Path) :
    ∀ (names : List String) (st st2 : PubState),
      cleanLoop o dir names st = (.ok (), st2) →
      ∀ n, n ≠ ".git" → (n ∈ names ∨ st.fs.find (dir ++ [n]) = none) →
      st2.fs.find (dir ++ [n]) = none := by
  intro names
  induction names with
  | nil =>
    intro st st2 h n hn hmem
    simp only [cleanLoop] at h
    cases h
    rcases hmem with hmem | hmem
    · exact absurd hmem (List.not_mem_nil n)
    · exact hmem
  | cons m rest ih =>
    intro st st2 h n hn hmem
    simp only [cleanLoop] at h
    by_cases hm : m = ".git"
    · rw [if_pos (by simp [hm])] at h
      refine ih st st2 h n hn ?_
      rcases hmem with hmem | hmem
      · rcases List.mem_cons.mp hmem with hmem | hmem
        · exact absurd (hmem.trans hm) hn
        · exact Or.inl hmem
      · exact Or.inr hmem
    · rw [if_neg (by simp [hm])] at h
      by_cases hf : o.removeAllFails (dir ++ [m]) = true
      · rw [if_pos hf] at h; cases h
      · rw [if_neg hf] at h
        refine ih _ st2 h n hn ?_
        rcases hmem with hmem | hmem
        · rcases List.mem_cons.mp hmem with hmem | hmem
          · subst hmem
            exact Or.inr (find_removeAt_self n dir st.fs)
          · exact Or.inl hmem
        · by_cases hnm : n = m
          · subst hnm
            exact Or.inr (find_removeAt_self n dir st.fs)
          · exact Or.inr (by
              show (removeAt st.fs (dir ++ [m])).find (dir ++ [n]) = none
              rw [find_removeAt_ne m n hnm dir st.fs]
              exact hmem)

theorem cleanLoop_preserves_git (o : Oracle) (dir : Path) :
    ∀ (names : List String) (st : PubState),
      (cleanLoop o dir names st).2.fs.find (dir ++ [".git"]) =
        st.fs.find (dir ++ [".git"]) := by
  intro names
  induction names with
  | nil => intro st; simp [cleanLoop]
  | cons m rest ih =>
    intro st
    simp only [cleanLoop]
    by_cases hm : m = ".git"
    · rw [if_pos (by simp [hm])]; exact ih st
    · rw [if_neg (by simp [hm])]
      by_cases hf : o.removeAllFails (dir ++ [m]) = true
      · rw [if_pos hf]
      · rw [if_neg hf]
        rw [ih]
        exact find_removeAt_ne m ".git" (fun h => hm h.symm) dir st.fs

theorem cleanLoop_err (o : Oracle) (dir : Path) :
    ∀ (names : List String) (st : PubState) (n : String),
      n ∈ names → n ≠ ".git" → o.removeAllFails (dir ++ [n]) = true →
      (cleanLoop o dir names st).1 = .error .ioErr := by
  intro names
  induction names with
  | nil => intro st n hmem; exact absurd hmem (List.not_mem_nil n)
  | cons m rest ih =>
    intro st n hmem hn hf
    simp only [cleanLoop]
    by_cases hm : m = ".git"
    · rw [if_pos (by simp [hm])]
      rcases List.mem_cons.mp hmem with hmem | hmem
      · exact absurd (hmem.trans hm) hn
      · exact ih st n hmem hn hf
    · rw [if_neg (by simp [hm])]
      by_cases hfm : o.removeAllFails (dir ++ [m]) = true
      · rw [if_pos hfm]
      · rw [if_neg hfm]
        rcases List.mem_cons.mp hmem with hmem | hmem
        · subst hmem; exact absurd hf hfm
        · exact ih _ n hmem hn hf

theorem cleanLoop_events (o : Oracle) (dir : Path) :
    ∀ (names : List String) (st : PubState),
      ∃ l, (cleanLoop o dir names st).2.events = st.events ++ l ∧
        ∀ x ∈ l, x.isFs = true := by
  intro names
  induction names with
  | nil => intro st; exact ⟨[], by simp [cleanLoop]⟩
  | cons m rest ih =>
    intro st
    simp only [cleanLoop]
    by_cases hm : m = ".git"
    · rw [if_pos (by simp [hm])]; exact ih st
    · rw [if_neg (by simp [hm])]
      by_cases hf : o.removeAllFails (dir ++ [m]) = true
      · rw [if_pos hf]; exact ⟨[], by simp⟩
      · rw [if_neg hf]
        obtain ⟨l, hl, hfs⟩ := ih ⟨removeAt st.fs (dir ++ [m]), st.events ++ [.fsRemove (dir ++ [m])], st.out⟩
        refine ⟨Event.fsRemove (dir ++ [m]) :: l, ?_, ?_⟩
        · simpa using hl
        · intro x hx
          rcases List.mem_cons.mp hx with hx | hx
          · subst hx; rfl
          · exact hfs x hx

theorem cleanWorkingTree_events (o : Oracle) (dir : Path) (st : PubState) :
    ∃ l, (cleanWorkingTree o dir st).2.events = st.events ++ l ∧
      ∀ x ∈ l, x.isFs = true := by
  unfold cleanWorkingTree
  cases h : readDirNames o st.fs dir with
  | error e => exact ⟨[], by simp⟩
  | ok names => exact cleanLoop_events o dir names st

/-- C5: for every directory passed to the working-tree sanitizer, after a
successful clean every top-level entry of that directory has been
deleted except the entry named `.git`, the `.git` entry itself is left
untouched, and failure to delete any single entry aborts the clean with
an error. -/
theorem cleanWorkingTree_spec (o : Oracle) (dir : Path) (st : PubState)
    (m : Nat) (es : Entries)
    (hdir : st.fs.find dir = some (.dir m es)) :
    (∀ st2, cleanWorkingTree o dir st = (.ok (), st2) →
       (∀ n, n ≠ ".git" → st2.fs.find (dir ++ [n]) = none) ∧
       st2.fs.find (dir ++ [".git"]) = st.fs.find (dir ++ [".git"]))
    ∧ (∀ n, n ∈ namesList es → n ≠ ".git" →
        o.removeAllFails (dir ++ [n]) = true → o.readDirFails dir = false →
        (cleanWorkingTree o dir st).1 = .error .ioErr) := by
  have hfind1 : ∀ n : String, st.fs.find (dir ++ [n]) = getEntry es n := by
    intro n
    rw [find_append dir [n] st.fs, hdir]
    show Node.find (.dir m es) [n] = getEntry es n
    simp only [Node.find]
    cases getEntry es n <;> simp [Node.find]
  constructor
  · intro st2 h
    unfold cleanWorkingTree at h
    cases hrd : readDirNames o st.fs dir with
    | error e => rw [hrd] at h; cases h
    | ok names =>
      rw [hrd] at h
      have hnames : names = namesList es := by
        unfold readDirNames at hrd
        by_cases hrf : o.readDirFails dir = true
        · rw [if_pos hrf] at hrd; cases hrd
        · rw [if_neg hrf, hdir] at hrd
          cases hrd; rfl
      subst hnames
      constructor
      · intro n hn
        refine cleanLoop_find_none o dir (namesList es) st st2 h n hn ?_
        by_cases hmem : n ∈ namesList es
        · exact Or.inl hmem
        · exact Or.inr (by rw [hfind1 n]; exact (getEntry_none_iff n es).mpr hmem)
      · have h2 : cleanLoop o dir (namesList es) st = (.ok (), st2) := h
        have h3 := cleanLoop_preserves_git o dir (namesList es) st
        rw [h2] at h3
        exact h3
  · intro n hmem hn hf hrd
    unfold cleanWorkingTree readDirNames
    rw [if_neg (by simp [hrd]), hdir]
    exact cleanLoop_err o dir (namesList es) st n hmem hn hf

/-- Witness for C5: on a concrete tree, a fault-free clean removes the
file `a` and keeps `.git` intact, and a clean whose `RemoveAll` fails at
`d/b` aborts with an error. -/
theorem cleanWorkingTree_spec_witness :
    ((cleanWorkingTree idealOracle ["d"] wSt5).2.fs.find ["d", "a"] = none
      ∧ (cleanWorkingTree idealOracle ["d"] wSt5).2.fs.find ["d", ".git"]
          = wSt5.fs.find ["d", ".git"])
    ∧ (cleanWorkingTree wOracle5 ["d"] wSt5).1 = .error .ioErr := by
  refine ⟨⟨?_, ?_⟩, ?_⟩
  · exact ((cleanWorkingTree_spec idealOracle ["d"] wSt5 493
      (.cons ".git" (.dir 448 .nil)
        (.cons "a" (.file [1] 420) (.cons "b" (.file [2] 420) .nil))) rfl).1
      ((cleanWorkingTree idealOracle ["d"] wSt5).2) rfl).1 "a" (by decide)
  · exact ((cleanWorkingTree_spec idealOracle ["d"] wSt5 493
      (.cons ".git" (.dir 448 .nil)
        (.cons "a" (.file [1] 420) (.cons "b" (.file [2] 420) .nil))) rfl).1
      ((cleanWorkingTree idealOracle ["d"] wSt5).2) rfl).2
  · exact (cleanWorkingTree_spec wOracle5 ["d"] wSt5 493
      (.cons ".git" (.dir 448 .nil)
        (.cons "a" (.file [1] 420) (.cons "b" (.file [2] 420) .nil))) rfl).2
      "b" (by decide) (by decide) rfl rfl

/-- C10: configuration validation of the source folder rejects only the
non-existence error: a stat failure of any other kind (for example
permission denied), and an existing folder whatever its readability
(the code never attempts to read it), pass validation. -/
theorem validateConfig_only_not_exist (statF : Path → StatRes) (cfg : Config) :
    (statF cfg.Folder = .errOther → validateConfig statF cfg = .ok ())
    ∧ (statF cfg.Folder = .found → validateConfig statF cfg = .ok ()) := by
  constructor <;> intro h <;> simp [validateConfig, h]

/-- Witness for C10: a stat oracle failing with a non-not-exist error,
and one that finds the folder, both pass validation. -/
theorem validateConfig_only_not_exist_witness :
    validateConfig (fun _ => StatRes.errOther) wCfgA = .ok ()
    ∧ validateConfig (fun _ => StatRes.found) wCfgA = .ok () :=
  ⟨(validateConfig_only_not_exist (fun _ => StatRes.errOther) wCfgA).1 rfl,
   (validateConfig_only_not_exist (fun _ => StatRes.found) wCfgA).2 rfl⟩

/-- C7 counterexample: a configuration with an empty branch name passes
configuration validation, and the run then proceeds into publishing (it
even reaches the network: a clone of the empty-named branch is
attempted), contradicting the claim that the run fails during
configuration validation. -/
theorem emptyBranch_passes_validation :
    validateConfig (fun _ => StatRes.found) wCfg7 = .ok ()
    ∧ Event.cloneAttempt (buildURL "kp/x") "" ["tmp", "pub1"] ∈
        (publishDirectory wOpsClean idealOracle wEnvAmb wCfg7 wStData).2.events := by
  exact ⟨rfl, by decide⟩

/-- C7 amended: the branch name is not validated at all; configuration
validation looks only at the source folder and fails exactly when its
stat reports non-existence, so an invocation with no branch name passes
validation (it can fail only later, inside the publish phase). -/
theorem validateConfig_ignores_branch (statF : Path → StatRes) (cfg : Config)
    (b : String) :
    validateConfig statF { cfg with Branch := b } = validateConfig statF cfg
    ∧ (validateConfig statF cfg = .ok () ↔ statF cfg.Folder ≠ .errNotExist) := by
  refine ⟨rfl, ?_⟩
  cases h : statF cfg.Folder <;> simp [validateConfig, h]

/-- C3: the branch acquirer returns a successful shallow clone
unchanged, and on any clone failure initializes a fresh repository at
the target path, creates and checks out the branch as a new orphan
branch, registers the remote URL under the name `origin`, and returns
that checkout. -/
theorem cloneOrCreateBranch_spec (ops : GitOps) (url branch : String)
    (dir : Path) (st : PubState) :
    (∀ r, ops.cloneRes = .ok r →
       cloneOrCreateBranch ops url branch dir st =
         (.ok r, ⟨st.fs.setAt dir ops.cloneTree,
                  st.events ++ [.cloneAttempt url branch dir], st.out⟩))
    ∧ (∀ e r, ops.cloneRes = .error e → ops.initRes = .ok r →
        ops.initWorktreeRes = .ok () → ops.checkoutRes = .ok () →
        ops.remoteRes = .ok () →
        cloneOrCreateBranch ops url branch dir st =
          (.ok r, ⟨st.fs.setAt (dir ++ [".git"]) (.dir 448 .nil),
                   st.events ++ [.cloneAttempt url branch dir, .gitInit dir,
                                 .checkoutCreate branch, .createRemote "origin" url],
                   st.out ++ ["Branch \x27" ++ branch
                     ++ "\x27 doesn\x27t exist, creating new orphan branch"]⟩)) := by
  constructor
  · intro r h
    unfold cloneOrCreateBranch
    rw [h]
  · intro e r h1 h2 h3 h4 h5
    unfold cloneOrCreateBranch
    rw [h1, h2, h3, h4, h5]
    simp

/-- Witness for C3: both halves at concrete inputs. -/
theorem cloneOrCreateBranch_spec_witness :
    cloneOrCreateBranch wOpsDirty "u" "b" ["t"] wStData =
      (.ok 1, ⟨wFsData.setAt ["t"] wCloneTree,
               [.cloneAttempt "u" "b" ["t"]], []⟩)
    ∧ cloneOrCreateBranch wOpsCloneErr "u" "b" ["t"] wStData =
      (.ok 2, ⟨wFsData.setAt ["t", ".git"] (.dir 448 .nil),
               [.cloneAttempt "u" "b" ["t"], .gitInit ["t"],
                .checkoutCreate "b", .createRemote "origin" "u"],
               ["Branch \x27b\x27 doesn\x27t exist, creating new orphan branch"]⟩) :=
  ⟨(cloneOrCreateBranch_spec wOpsDirty "u" "b" ["t"] wStData).1 1 rfl,
   (cloneOrCreateBranch_spec wOpsCloneErr "u" "b" ["t"] wStData).2 .gitErr 2
     rfl rfl rfl rfl rfl⟩

/-- C1 (the code contradicts the claim): the mirror computes
`targetPath := filepath.Join(source, relativePath)`, so every write goes
back to the walked path itself.  At a concrete input the mirror
succeeds, yet the destination received nothing and the source file was
truncated in place (opened, then created - that is, truncated - at the
same path, then copied from the now-empty handle). -/
theorem copyDirectory_misses_destination :
    (copyDirectory idealOracle ["src"] ["dst"] wSt1).1 = .ok ()
    ∧ (copyDirectory idealOracle ["src"] ["dst"] wSt1).2.fs.find ["dst", "a.txt"] = none
    ∧ (copyDirectory idealOracle ["src"] ["dst"] wSt1).2.fs.find ["src", "a.txt"]
        = some (.file [] 420) :=
  ⟨rfl, rfl, rfl⟩

/-- C6 (the code contradicts the claim): a fully successful publish run
performs a filesystem write (`os.Create` during the mirror step) at a
path under the configured source folder, which is outside the temporary
directory, because the mirror joins `source` instead of `destination`. -/
theorem publishDirectory_writes_outside_tempdir :
    (publishDirectory wOpsDirty idealOracle wEnvAmb wCfgSite ⟨wFsSite, [], []⟩).1 = .ok ()
    ∧ Event.fsCreate ["work", "site", "index.html"] ∈
        (publishDirectory wOpsDirty idealOracle wEnvAmb wCfgSite ⟨wFsSite, [], []⟩).2.events
    ∧ List.isPrefixOf ["tmp", "pub1"] ["work", "site", "index.html"] = false :=
  ⟨rfl, by decide, by decide⟩

/-! ### Event-extension lemmas -/

theorem Event.isFs_ne (x : Event) (h : x.isFs = true) :
    x ≠ Event.commit ∧ x ≠ Event.push := by
  cases x <;> simp_all [Event.isFs]

theorem isPrefixOf_append_drop (a : Path) :
    ∀ b : Path, a.isPrefixOf b = true → a ++ b.drop a.length = b := by
  induction a with
  | nil => intro b h; simp
  | cons x xs ih =>
    intro b h
    cases b with
    | nil => simp [List.isPrefixOf] at h
    | cons y ys =>
      simp only [List.isPrefixOf, Bool.and_eq_true, beq_iff_eq] at h
      obtain ⟨hxy, hrest⟩ := h
      subst hxy
      simp [ih ys hrest]

theorem isPrefixOf_extend (a : Path) :
    ∀ (b c : Path), a.isPrefixOf b = true → a.isPrefixOf (b ++ c) = true := by
  induction a with
  | nil => intro b c h; simp [List.isPrefixOf]
  | cons x xs ih =>
    intro b c h
    cases b with
    | nil => simp [List.isPrefixOf] at h
    | cons y ys =>
      simp only [List.isPrefixOf, Bool.and_eq_true, beq_iff_eq] at h ⊢
      exact ⟨h.1, ih ys c h.2⟩

theorem isPrefixOf_self (a : Path) : a.isPrefixOf a = true := by
  induction a with
  | nil => rfl
  | cons x xs ih => simp [List.isPrefixOf, ih]

theorem mkdirAllOp_events (o : Oracle) (p : Path) (mode : Nat) (st : PubState) :
    ∃ l, (mkdirAllOp o p mode st).2.events = st.events ++ l ∧
      ∀ ev ∈ l, ev.isFs = true ∧ ev.epath = p := by
  unfold mkdirAllOp
  by_cases h : o.mkdirFails p = true
  · simp only [if_pos h]; exact ⟨[], by simp⟩
  · simp only [if_neg h]
    rcases hm : mkdirAllP st.fs p mode with ⟨r, fs2⟩
    cases r with
    | error e => exact ⟨[], by simp⟩
    | ok u => exact ⟨[.fsMkdir p], by simp [Event.isFs, Event.epath]⟩

theorem copyFileOp_events (o : Oracle) (src dst : Path) (st : PubState) :
    ∃ l, (copyFileOp o src dst st).2.events = st.events ++ l ∧
      ∀ ev ∈ l, ev.isFs = true ∧ ev.epath = dst := by
  unfold copyFileOp
  by_cases h1 : o.openFails src = true
  · simp only [if_pos h1]; exact ⟨[], by simp⟩
  · simp only [if_neg h1]
    cases hf : st.fs.find src with
    | none => exact ⟨[], by simp⟩
    | some t =>
      cases t with
      | dir m es => exact ⟨[], by simp⟩
      | file c fm =>
        by_cases h2 : o.createFails dst = true
        · simp only [if_pos h2]; exact ⟨[], by simp⟩
        · simp only [if_neg h2]
          cases hc : createFile st.fs dst with
          | error e => exact ⟨[], by simp⟩
          | ok fs1 =>
            by_cases h3 : o.copyFails src = true
            · simp only [if_pos h3]
              exact ⟨[.fsCreate dst], by simp [Event.isFs, Event.epath]⟩
            · simp only [if_neg h3]
              by_cases h4 : o.statFails src = true
              · simp only [if_pos h4]
                exact ⟨[.fsCreate dst], by simp [Event.isFs, Event.epath]⟩
              · simp only [if_neg h4]
                cases hs : (writeContent fs1 dst
                    (match fs1.find src with
                     | some (.file c _) => c
                     | _ => [])).find src with
                | none => exact ⟨[.fsCreate dst], by simp [Event.isFs, Event.epath]⟩
                | some sn =>
                  by_cases h5 : o.chmodFails dst = true
                  · simp only [if_pos h5]
                    exact ⟨[.fsCreate dst], by simp [Event.isFs, Event.epath]⟩
                  · simp only [if_neg h5]
                    exact ⟨[.fsCreate dst, .fsChmod dst],
                      by simp [Event.isFs, Event.epath]⟩

theorem copyWalkFn_events (o : Oracle) (source destination path : Path)
    (info : Info) (err : Option GErr) (st : PubState) :
    ∃ l, (copyWalkFn o source destination path info err st).2.events
        = st.events ++ l ∧
      (∀ ev ∈ l, ev.isFs = true ∧
        (source.isPrefixOf path = true → ev.epath = path)) ∧
      (info.isDir = true → info.name = ".git" → l = []) := by
  unfold copyWalkFn
  match err with
  | some e => exact ⟨[], by simp⟩
  | none =>
    by_cases hgit : (info.isDir && info.name == ".git") = true
    · simp only [if_pos hgit]
      exact ⟨[], by simp⟩
    · simp only [if_neg hgit]
      have hgitF : info.isDir = true → info.name = ".git" → False := by
        intro hd hn
        exact hgit (by simp [hd, hn])
      cases hrel : relPath source path with
      | none => exact ⟨[], by simp, by simp, fun _ _ => rfl⟩
      | some rel2 =>
        have hrel2 : source.isPrefixOf path = true → source ++ rel2 = path := by
          intro hp
          unfold relPath at hrel
          rw [if_pos hp] at hrel
          cases hrel
          exact isPrefixOf_append_drop source path hp
        by_cases hd : info.isDir = true
        · simp only [if_pos hd]
          obtain ⟨l, hl, hprop⟩ := mkdirAllOp_events o (source ++ rel2) info.mode st
          refine ⟨l, hl, ?_, fun hd2 hn => (hgitF hd2 hn).elim⟩
          intro ev hev
          obtain ⟨hfs, hpath⟩ := hprop ev hev
          exact ⟨hfs, fun hp => by rw [hpath, hrel2 hp]⟩
        · simp only [if_neg hd]
          obtain ⟨l, hl, hprop⟩ := copyFileOp_events o path (source ++ rel2) st
          refine ⟨l, hl, ?_, fun hd2 _ => (hd hd2).elim⟩
          intro ev hev
          obtain ⟨hfs, hpath⟩ := hprop ev hev
          exact ⟨hfs, fun hp => by rw [hpath, hrel2 hp]⟩

/-- Every event appended by a walk with the copy callback is a
filesystem write at a visited relative path. -/
theorem walk_events (o : Oracle) (source destination : Path) :
    (∀ t : Node, ∀ path name s, ∃ l,
        (walkRec (copyWalkFn o source destination) o path name t s).2.events
          = s.events ++ l ∧
        ∀ ev ∈ l, EvProp source path (visitedRels name t) ev)
    ∧ (∀ es : Entries, ∀ path s, ∃ l,
        (walkEntries (copyWalkFn o source destination) o path es s).2.events
          = s.events ++ l ∧
        ∀ ev ∈ l, EvProp source path (entryRels es) ev) := by
  refine nodeEntriesInduction
    (fun t => ∀ path name s, ∃ l,
      (walkRec (copyWalkFn o source destination) o path name t s).2.events
        = s.events ++ l ∧
      ∀ ev ∈ l, EvProp source path (visitedRels name t) ev)
    (fun es => ∀ path s, ∃ l,
      (walkEntries (copyWalkFn o source destination) o path es s).2.events
        = s.events ++ l ∧
      ∀ ev ∈ l, EvProp source path (entryRels es) ev)
    ?_ ?_ ?_ ?_
  · intro c m path name s
    obtain ⟨l, hl, hprop, _⟩ :=
      copyWalkFn_events o source destination path ⟨name, false, m⟩ none s
    refine ⟨l, by simpa [walkRec] using hl, ?_⟩
    intro ev hev
    obtain ⟨hfs, hpath⟩ := hprop ev hev
    refine ⟨hfs, fun hp => ⟨[], ?_, by simp [hpath hp]⟩⟩
    simp [visitedRels]
  · intro m es ihE path name s
    by_cases hrd : o.readDirFails path = true
    · have hfn : copyWalkFn o source destination path ⟨name, true, m⟩ (some .ioErr) s
          = (.err .ioErr, s) := rfl
      refine ⟨[], ?_, by simp⟩
      simp [walkRec, hrd, hfn]
    · have hrdF : o.readDirFails path = false := by simpa using hrd
      rcases hfn : copyWalkFn o source destination path ⟨name, true, m⟩ none s with ⟨sig, s1⟩
      obtain ⟨l1, hl1, hprop1, hgit1⟩ :=
        copyWalkFn_events o source destination path ⟨name, true, m⟩ none s
      rw [hfn] at hl1
      dsimp only at hl1
      have hprop1d : ∀ ev ∈ l1, EvProp source path (visitedRels name (.dir m es)) ev := by
        intro ev hev
        obtain ⟨hfs, hpath⟩ := hprop1 ev hev
        refine ⟨hfs, fun hp => ?_⟩
        by_cases hname : name = ".git"
        · rw [hgit1 rfl hname] at hev
          exact absurd hev (List.not_mem_nil ev)
        · refine ⟨[], ?_, by simp [hpath hp]⟩
          have hb : (name == ".git") = false := by simp [hname]
          rw [show visitedRels name (.dir m es)
              = if name == ".git" then [] else [] :: entryRels es from rfl, hb]
          simp
      cases sig with
      | err e =>
        refine ⟨l1, ?_, hprop1d⟩
        simp [walkRec, hrdF, hfn, hl1]
      | skipDir =>
        refine ⟨l1, ?_, hprop1d⟩
        simp [walkRec, hrdF, hfn, hl1]
      | ok =>
        by_cases hname : name = ".git"
        · subst hname
          have hskip : copyWalkFn o source destination path ⟨".git", true, m⟩ none s
              = (.skipDir, s) := rfl
          rw [hskip] at hfn
          have := congrArg Prod.fst hfn
          simp at this
        · obtain ⟨l2, hl2, hprop2⟩ := ihE path s1
          refine ⟨l1 ++ l2, ?_, ?_⟩
          · simp [walkRec, hrdF, hfn, hl2, hl1, List.append_assoc]
          · intro ev hev
            rcases List.mem_append.mp hev with hev | hev
            · exact hprop1d ev hev
            · obtain ⟨hfs, hpath⟩ := hprop2 ev hev
              refine ⟨hfs, fun hp => ?_⟩
              obtain ⟨r, hr, hpe⟩ := hpath hp
              refine ⟨r, ?_, hpe⟩
              have hb : (name == ".git") = false := by simp [hname]
              rw [show visitedRels name (.dir m es)
                  = if name == ".git" then [] else [] :: entryRels es from rfl, hb]
              simp only [Bool.false_eq_true, if_false]
              exact List.mem_cons_of_mem [] hr
  · intro path s
    exact ⟨[], by simp [walkEntries], by simp⟩
  · intro n t rest ihN ihE path s
    by_cases hls : o.lstatFails (path ++ [n]) = true
    · have hfn : copyWalkFn o source destination (path ++ [n]) ⟨n, false, 0⟩ (some .ioErr) s
          = (.err .ioErr, s) := rfl
      refine ⟨[], ?_, by simp⟩
      simp [walkEntries, hls, hfn]
    · have hlsF : o.lstatFails (path ++ [n]) = false := by simpa using hls
      rcases hw : walkRec (copyWalkFn o source destination) o (path ++ [n]) n t s with ⟨sig, s1⟩
      obtain ⟨l1, hl1, hprop1⟩ := ihN (path ++ [n]) n s
      rw [hw] at hl1
      dsimp only at hl1
      have hlift : ∀ ev ∈ l1, EvProp source path (entryRels (.cons n t rest)) ev := by
        intro ev hev
        obtain ⟨hfs, hpath⟩ := hprop1 ev hev
        refine ⟨hfs, fun hp => ?_⟩
        obtain ⟨r, hr, hpe⟩ := hpath (isPrefixOf_extend source path [n] hp)
        refine ⟨n :: r, ?_, by simp [hpe]⟩
        rw [show entryRels (.cons n t rest)
            = (visitedRels n t).map (fun r2 => n :: r2) ++ entryRels rest from rfl]
        exact List.mem_append.mpr (Or.inl (List.mem_map.mpr ⟨r, hr, rfl⟩))
      have hliftRest : ∀ l2 : List Event, (∀ ev ∈ l2, EvProp source path (entryRels rest) ev) →
          ∀ ev ∈ l2, EvProp source path (entryRels (.cons n t rest)) ev := by
        intro l2 hprop2 ev hev
        obtain ⟨hfs, hpath⟩ := hprop2 ev hev
        refine ⟨hfs, fun hp => ?_⟩
        obtain ⟨r, hr, hpe⟩ := hpath hp
        refine ⟨r, ?_, hpe⟩
        rw [show entryRels (.cons n t rest)
            = (visitedRels n t).map (fun r2 => n :: r2) ++ entryRels rest from rfl]
        exact List.mem_append.mpr (Or.inr hr)
      cases sig with
      | err e =>
        refine ⟨l1, ?_, hlift⟩
        simp [walkEntries, hlsF, hw, hl1]
      | skipDir =>
        cases t with
        | file c m =>
          refine ⟨l1, ?_, hlift⟩
          simp [walkEntries, hlsF, hw, hl1]
        | dir m es =>
          obtain ⟨l2, hl2, hprop2⟩ := ihE path s1
          refine ⟨l1 ++ l2, ?_, ?_⟩
          · simp [walkEntries, hlsF, hw, hl2, hl1, List.append_assoc]
          · intro ev hev
            rcases List.mem_append.mp hev with hev | hev
            · exact hlift ev hev
            · exact hliftRest l2 hprop2 ev hev
      | ok =>
        obtain ⟨l2, hl2, hprop2⟩ := ihE path s1
        refine ⟨l1 ++ l2, ?_, ?_⟩
        · simp [walkEntries, hlsF, hw, hl2, hl1, List.append_assoc]
        · intro ev hev
          rcases List.mem_append.mp hev with hev | hev
          · exact hlift ev hev
          · exact hliftRest l2 hprop2 ev hev

/-- The whole mirror appends only filesystem-write events. -/
theorem copyDirectory_events (o : Oracle) (source destination : Path) (st : PubState) :
    ∃ l, (copyDirectory o source destination st).2.events = st.events ++ l ∧
      ∀ x ∈ l, x.isFs = true := by
  unfold copyDirectory
  by_cases hls : o.lstatFails source = true
  · have hfn : copyWalkFn o source destination source ⟨"", false, 0⟩ (some .ioErr) st
        = (.err .ioErr, st) := rfl
    simp only [if_pos hls, hfn]
    exact ⟨[], by simp⟩
  · simp only [if_neg hls]
    cases hf : st.fs.find source with
    | none =>
      have hfn : copyWalkFn o source destination source ⟨"", false, 0⟩ (some .notExist) st
          = (.err .notExist, st) := rfl
      simp only [hfn]
      exact ⟨[], by simp⟩
    | some t =>
      dsimp only
      rcases hw : walkRec (copyWalkFn o source destination) o source
          (source.getLastD "") t st with ⟨sig, s1⟩
      obtain ⟨l, hl, hprop⟩ := (walk_events o source destination).1 t source
        (source.getLastD "") st
      rw [hw] at hl
      dsimp only at hl
      cases sig with
      | err e => exact ⟨l, hl, fun x hx => (hprop x hx).1⟩
      | skipDir => exact ⟨l, hl, fun x hx => (hprop x hx).1⟩
      | ok => exact ⟨l, hl, fun x hx => (hprop x hx).1⟩

/-- The branch acquirer logs the clone attempt first and appends only
acquisition events after it. -/
theorem cloneOrCreateBranch_events (ops : GitOps) (url branch : String)
    (dir : Path) (st : PubState) :
    ∃ l, (cloneOrCreateBranch ops url branch dir st).2.events
        = st.events ++ Event.cloneAttempt url branch dir :: l ∧
      ∀ x ∈ l, x = Event.gitInit dir ∨ x = Event.checkoutCreate branch
        ∨ x = Event.createRemote "origin" url := by
  unfold cloneOrCreateBranch
  cases ops.cloneRes with
  | ok r => exact ⟨[], by simp⟩
  | error e =>
    cases ops.initRes with
    | error e2 => exact ⟨[.gitInit dir], by simp⟩
    | ok r =>
      cases ops.initWorktreeRes with
      | error e2 => exact ⟨[.gitInit dir], by simp⟩
      | ok u =>
        cases ops.checkoutRes with
        | error e2 => exact ⟨[.gitInit dir, .checkoutCreate branch], by simp⟩
        | ok u2 =>
          cases ops.remoteRes with
          | error e2 =>
            exact ⟨[.gitInit dir, .checkoutCreate branch, .createRemote "origin" url],
              by simp⟩
          | ok u3 =>
            exact ⟨[.gitInit dir, .checkoutCreate branch, .createRemote "origin" url],
              by simp⟩

/-- C8: the mirror has no skip-and-continue policy: an error on any
entry of a directory listing makes the traversal return that error
immediately - the entries after the failure point are never consulted
(first conjunct); on success the traversal continues through the
remaining entries from the accumulated state (second conjunct); and a
walk error aborts the whole mirror with that error (third conjunct). -/
theorem copy_aborts_on_first_failure (o : Oracle) (source destination path : Path)
    (es1 es2 : Entries) (s : PubState) :
    (∀ e s2,
       walkEntries (copyWalkFn o source destination) o path es1 s = (.err e, s2) →
       walkEntries (copyWalkFn o source destination) o path (es1.append es2) s
         = (.err e, s2))
    ∧ (∀ s2,
       walkEntries (copyWalkFn o source destination) o path es1 s = (.ok, s2) →
       walkEntries (copyWalkFn o source destination) o path (es1.append es2) s
         = walkEntries (copyWalkFn o source destination) o path es2 s2)
    ∧ (∀ t e s2, o.lstatFails source = false → s.fs.find source = some t →
       walkRec (copyWalkFn o source destination) o source (source.getLastD "") t s
         = (.err e, s2) →
       (copyDirectory o source destination s).1 = .error e) := by
  have main : ∀ (es3 : Entries) (s3 : PubState),
      (∀ e s2,
        walkEntries (copyWalkFn o source destination) o path es3 s3 = (.err e, s2) →
        walkEntries (copyWalkFn o source destination) o path (es3.append es2) s3
          = (.err e, s2))
      ∧ (∀ s2,
        walkEntries (copyWalkFn o source destination) o path es3 s3 = (.ok, s2) →
        walkEntries (copyWalkFn o source destination) o path (es3.append es2) s3
          = walkEntries (copyWalkFn o source destination) o path es2 s2) := by
    intro es3
    induction es3 using entriesInduction with
    | hnil =>
      intro s3
      constructor
      · intro e s2 h
        simp [walkEntries] at h
      · intro s2 h
        simp only [walkEntries] at h
        obtain ⟨-, h2⟩ := Prod.mk.injEq .. ▸ h
        rw [show Entries.append .nil es2 = es2 from rfl]
        rw [show s2 = s3 from h2.symm]
    | hcons n t rest ih =>
      intro s3
      rw [show (Entries.cons n t rest).append es2 = .cons n t (rest.append es2) from rfl]
      by_cases hls : o.lstatFails (path ++ [n]) = true
      · have hfn : copyWalkFn o source destination (path ++ [n]) ⟨n, false, 0⟩
            (some .ioErr) s3 = (.err .ioErr, s3) := rfl
        constructor
        · intro e s2 h
          simp only [walkEntries, hls, if_true, hfn] at h ⊢
          exact h
        · intro s2 h
          simp only [walkEntries, hls, if_true, hfn] at h
          simp at h
      · have hlsF : o.lstatFails (path ++ [n]) = false := by simpa using hls
        rcases hw : walkRec (copyWalkFn o source destination) o (path ++ [n]) n t s3
          with ⟨sig, s1⟩
        cases sig with
        | err e1 =>
          constructor
          · intro e s2 h
            simp only [walkEntries, hlsF, Bool.false_eq_true, if_false, hw] at h ⊢
            exact h
          · intro s2 h
            simp only [walkEntries, hlsF, Bool.false_eq_true, if_false, hw] at h
            simp at h
        | skipDir =>
          cases t with
          | file c m =>
            constructor
            · intro e s2 h
              simp only [walkEntries, hlsF, Bool.false_eq_true, if_false, hw] at h
              simp at h
            · intro s2 h
              simp only [walkEntries, hlsF, Bool.false_eq_true, if_false, hw] at h
              simp at h
          | dir m es =>
            constructor
            · intro e s2 h
              simp only [walkEntries, hlsF, Bool.false_eq_true, if_false, hw] at h ⊢
              exact (ih s1).1 e s2 h
            · intro s2 h
              simp only [walkEntries, hlsF, Bool.false_eq_true, if_false, hw] at h ⊢
              exact (ih s1).2 s2 h
        | ok =>
          constructor
          · intro e s2 h
            simp only [walkEntries, hlsF, Bool.false_eq_true, if_false, hw] at h ⊢
            exact (ih s1).1 e s2 h
          · intro s2 h
            simp only [walkEntries, hlsF, Bool.false_eq_true, if_false, hw] at h ⊢
            exact (ih s1).2 s2 h
  refine ⟨(main es1 s).1, (main es1 s).2, ?_⟩
  intro t e s2 hlt hfind hwr
  unfold copyDirectory
  rw [hlt, if_neg (show ¬(false = true) by simp), hfind]
  dsimp only
  rw [hwr]

/-- Witness for C8: with `Create` failing at `s/b.txt`, the traversal of
a listing starting at `b.txt` aborts at once whatever follows, a
successful prefix hands its state to the rest, and the whole mirror of
`s` reports the error. -/
theorem copy_aborts_on_first_failure_witness :
    walkEntries (copyWalkFn wOracle8 ["s"] ["d"]) wOracle8 ["s"]
        (wEntriesB.append wEntriesA) wSt8 = (.err .ioErr, wSt8)
    ∧ walkEntries (copyWalkFn wOracle8 ["s"] ["d"]) wOracle8 ["s"]
        (wEntriesA.append wEntriesB) wSt8
      = walkEntries (copyWalkFn wOracle8 ["s"] ["d"]) wOracle8 ["s"] wEntriesB
          (walkEntries (copyWalkFn wOracle8 ["s"] ["d"]) wOracle8 ["s"] wEntriesA wSt8).2
    ∧ (copyDirectory wOracle8 ["s"] ["d"] wSt8).1 = .error .ioErr :=
  ⟨(copy_aborts_on_first_failure wOracle8 ["s"] ["d"] ["s"] wEntriesB wEntriesA wSt8).1
      .ioErr wSt8 rfl,
   (copy_aborts_on_first_failure wOracle8 ["s"] ["d"] ["s"] wEntriesA wEntriesB wSt8).2.1
      (walkEntries (copyWalkFn wOracle8 ["s"] ["d"]) wOracle8 ["s"] wEntriesA wSt8).2 rfl,
   (copy_aborts_on_first_failure wOracle8 ["s"] ["d"] ["s"] wEntriesB wEntriesA wSt8).2.2
      wT8 .ioErr
      (walkRec (copyWalkFn wOracle8 ["s"] ["d"]) wOracle8 ["s"] "s" wT8 wSt8).2
      rfl rfl rfl⟩

/-! ### The walk never acts below a nested `.git` directory -/

theorem entryRels_head : ∀ (es : Entries) (r : Path), r ∈ entryRels es →
    ∃ q r2, r = q :: r2 ∧ q ∈ namesList es := by
  intro es
  induction es using entriesInduction with
  | hnil => intro r hr; simp [entryRels] at hr
  | hcons n t rest ih =>
    intro r hr
    rw [show entryRels (.cons n t rest)
        = (visitedRels n t).map (fun r2 => n :: r2) ++ entryRels rest from rfl] at hr
    rcases List.mem_append.mp hr with hr | hr
    · obtain ⟨r2, hr2, heq⟩ := List.mem_map.mp hr
      exact ⟨n, r2, heq.symm, by simp [namesList]⟩
    · obtain ⟨q, r2, heq, hq⟩ := ih r hr
      exact ⟨q, r2, heq, by simp [namesList, hq]⟩

theorem prefix_nil_false (d : Path) (hd : d ≠ []) :
    List.isPrefixOf d ([] : Path) = false := by
  cases d with
  | nil => exact absurd rfl hd
  | cons x xs => rfl

/-- In a well-formed tree, no visited relative path of the copy walk
extends a path that names a `.git` directory. -/
theorem visitedRels_no_git :
    (∀ t : Node, t.wf = true →
      ∀ (d : Path) (m2 : Nat) (es2 : Entries) (name : String) (r : Path),
      d ≠ [] → d.getLast? = some ".git" → t.find d = some (.dir m2 es2) →
      r ∈ visitedRels name t → d.isPrefixOf r = false)
    ∧ (∀ es : Entries, nodupNames es = true → Entries.wfAll es = true →
      ∀ (d : Path) (m2 : Nat) (es2 : Entries) (r : Path),
      d ≠ [] → d.getLast? = some ".git" →
      (Node.dir 0 es).find d = some (.dir m2 es2) →
      r ∈ entryRels es → d.isPrefixOf r = false) := by
  refine nodeEntriesInduction
    (fun t => t.wf = true →
      ∀ (d : Path) (m2 : Nat) (es2 : Entries) (name : String) (r : Path),
      d ≠ [] → d.getLast? = some ".git" → t.find d = some (.dir m2 es2) →
      r ∈ visitedRels name t → d.isPrefixOf r = false)
    (fun es => nodupNames es = true → Entries.wfAll es = true →
      ∀ (d : Path) (m2 : Nat) (es2 : Entries) (r : Path),
      d ≠ [] → d.getLast? = some ".git" →
      (Node.dir 0 es).find d = some (.dir m2 es2) →
      r ∈ entryRels es → d.isPrefixOf r = false)
    ?_ ?_ ?_ ?_
  · intro c m _ d m2 es2 name r hd hlast hfind hr
    cases d with
    | nil => exact absurd rfl hd
    | cons d0 d2 => simp [Node.find] at hfind
  · intro m es ihQ hwf d m2 es2 name r hd hlast hfind hr
    have hwf2 : nodupNames es = true ∧ Entries.wfAll es = true := by
      simpa [Node.wf, Bool.and_eq_true] using hwf
    by_cases hname : name = ".git"
    · subst hname
      rw [show visitedRels ".git" (.dir m es) = [] from by simp [visitedRels]] at hr
      exact absurd hr (List.not_mem_nil r)
    · have hb : (name == ".git") = false := by simp [hname]
      rw [show visitedRels name (.dir m es)
          = if name == ".git" then [] else [] :: entryRels es from rfl, hb] at hr
      simp only [Bool.false_eq_true, if_false] at hr
      rcases List.mem_cons.mp hr with hr | hr
      · subst hr
        exact prefix_nil_false d hd
      · cases d with
        | nil => exact absurd rfl hd
        | cons d0 d2 =>
          exact ihQ hwf2.1 hwf2.2 (d0 :: d2) m2 es2 r hd hlast hfind hr
  · intro _ _ d m2 es2 r _ _ _ hr
    simp [entryRels] at hr
  · intro n0 t0 rest ihP ihQ hnd hwa d m2 es2 r hd hlast hfind hr
    have hnd2 : ((namesList rest).contains n0) = false ∧ nodupNames rest = true := by
      simpa [nodupNames, Bool.and_eq_true] using hnd
    have hwa2 : t0.wf = true ∧ Entries.wfAll rest = true := by
      simpa [Entries.wfAll, Bool.and_eq_true] using hwa
    cases d with
    | nil => exact absurd rfl hd
    | cons d0 d2 =>
      rw [show entryRels (.cons n0 t0 rest)
          = (visitedRels n0 t0).map (fun r2 => n0 :: r2) ++ entryRels rest from rfl] at hr
      rcases List.mem_append.mp hr with hr | hr
      · obtain ⟨r2, hr2, heq⟩ := List.mem_map.mp hr
        subst heq
        by_cases hdn : d0 = n0
        · subst hdn
          have hget : getEntry (.cons d0 t0 rest) d0 = some t0 := by
            simp [getEntry]
          have hfind2 : t0.find d2 = some (.dir m2 es2) := by
            simpa [Node.find, hget] using hfind
          cases d2 with
          | nil =>
            have hname : d0 = ".git" := by simpa using hlast
            have ht0 : t0 = .dir m2 es2 := by simpa [Node.find] using hfind2
            subst hname
            rw [ht0] at hr2
            rw [show visitedRels ".git" (.dir m2 es2) = [] from by simp [visitedRels]] at hr2
            exact absurd hr2 (List.not_mem_nil r2)
          | cons x xs =>
            have hlast2 : (x :: xs).getLast? = some ".git" := by
              simpa [List.getLast?_cons_cons] using hlast
            have hpre := ihP hwa2.1 (x :: xs) m2 es2 d0 r2 (by simp) hlast2 hfind2 hr2
            simp [List.isPrefixOf, hpre]
        · have hb : (d0 == n0) = false := by simp [hdn]
          simp [List.isPrefixOf, hb]
      · obtain ⟨q, r2, heq, hq⟩ := entryRels_head rest r hr
        subst heq
        by_cases hdq : d0 = q
        · subst hdq
          by_cases hn0 : n0 = d0
          · subst hn0
            rw [show ((namesList rest).contains n0) = true from by
              simpa [List.elem_iff] using hq] at hnd2
            exact absurd hnd2.1 (by simp)
          · have hb : (n0 == d0) = false := by simp [hn0]
            have hfind2 : (Node.dir 0 rest).find (d0 :: d2) = some (.dir m2 es2) := by
              simpa [Node.find, getEntry, hb] using hfind
            exact ihQ hnd2.2 hwa2.2 (d0 :: d2) m2 es2 (d0 :: r2) hd hlast hfind2 hr
        · have hb : (d0 == q) = false := by simp [hdq]
          simp [List.isPrefixOf, hb]

theorem isPrefixOf_append_cancel (a : Path) :
    ∀ b c : Path, (a ++ b).isPrefixOf (a ++ c) = b.isPrefixOf c := by
  induction a with
  | nil => intro b c; rfl
  | cons x xs ih => intro b c; simp [List.isPrefixOf, ih]

/-- Like `copyDirectory_events`, but recording where each appended event
may point: at the walk root or one of its visited descendants. -/
theorem copyDirectory_events_rels (o : Oracle) (source destination : Path)
    (st : PubState) (t : Node) (hfind : st.fs.find source = some t) :
    ∃ l, (copyDirectory o source destination st).2.events = st.events ++ l ∧
      ∀ ev ∈ l, ev.isFs = true ∧
        ∃ r ∈ visitedRels (source.getLastD "") t, ev.epath = source ++ r := by
  unfold copyDirectory
  by_cases hls : o.lstatFails source = true
  · have hfn : copyWalkFn o source destination source ⟨"", false, 0⟩ (some .ioErr) st
        = (.err .ioErr, st) := rfl
    simp only [if_pos hls, hfn]
    exact ⟨[], by simp⟩
  · simp only [if_neg hls]
    rw [hfind]
    dsimp only
    rcases hw : walkRec (copyWalkFn o source destination) o source
        (source.getLastD "") t st with ⟨sig, s1⟩
    obtain ⟨l, hl, hprop⟩ := (walk_events o source destination).1 t source
      (source.getLastD "") st
    rw [hw] at hl
    dsimp only at hl
    have hprop2 : ∀ ev ∈ l, ev.isFs = true ∧
        ∃ r ∈ visitedRels (source.getLastD "") t, ev.epath = source ++ r := by
      intro ev hev
      obtain ⟨hfs, hpath⟩ := hprop ev hev
      exact ⟨hfs, hpath (isPrefixOf_self source)⟩
    cases sig with
    | err e => exact ⟨l, hl, hprop2⟩
    | skipDir => exact ⟨l, hl, hprop2⟩
    | ok => exact ⟨l, hl, hprop2⟩

/-- C9: the `.git` exclusion applies at every depth of the walk: in a
well-formed source tree, a directory named `.git` anywhere below the
source root is skipped together with all of its descendants - no
filesystem operation of the mirror touches any path at or below it. -/
theorem copy_skips_git_at_every_depth (o : Oracle) (source destination : Path)
    (st : PubState) (t : Node) (d : Path) (m2 : Nat) (es2 : Entries)
    (hfind : st.fs.find source = some t)
    (hwf : t.wf = true)
    (hd : d ≠ [])
    (hlast : d.getLast? = some ".git")
    (hdir : t.find d = some (.dir m2 es2)) :
    ∀ ev ∈ (copyDirectory o source destination st).2.events,
      ev ∈ st.events ∨ (source ++ d).isPrefixOf ev.epath = false := by
  intro ev hev
  obtain ⟨l, hl, hprop⟩ := copyDirectory_events_rels o source destination st t hfind
  rw [hl] at hev
  rcases List.mem_append.mp hev with h | h
  · exact Or.inl h
  · right
    obtain ⟨hfs, r, hr, hpe⟩ := hprop ev h
    rw [hpe, isPrefixOf_append_cancel source d r]
    exact visitedRels_no_git.1 t hwf d m2 es2 (source.getLastD "") r hd hlast hdir hr

/-- Witness for C9: in a tree holding `sub/.git/HEAD` and `sub/x.txt`,
the mirror acts on `sub/x.txt` (truncating it in place, per the C1 bug)
but on nothing at or below `sub/.git`. -/
theorem copy_skips_git_at_every_depth_witness :
    Event.fsCreate ["s", "sub", "x.txt"]
        ∈ (copyDirectory idealOracle ["s"] ["dd"] wSt9).2.events
    ∧ (Event.fsCreate ["s", "sub", "x.txt"] ∈ wSt9.events
        ∨ (["s"] ++ ["sub", ".git"]).isPrefixOf
            (Event.fsCreate ["s", "sub", "x.txt"]).epath = false) :=
  ⟨by decide,
   copy_skips_git_at_every_depth idealOracle ["s"] ["dd"] wSt9 wT9
     ["sub", ".git"] 448 (.cons "HEAD" (.file [1] 420) .nil)
     rfl rfl (by simp) rfl rfl
     (Event.fsCreate ["s", "sub", "x.txt"]) (by decide)⟩

/-! ### Repository resolution and the run-level theorems -/

/-- Whatever happens after it, the publish body always logs the clone
attempt (with the URL it was given) right after the inherited events. -/
theorem publishBody_events (ops : GitOps) (o : Oracle) (cfg : Config)
    (url : String) (tmp : Path) (st : PubState) :
    ∃ l, (publishBody ops o cfg url tmp st).2.events
        = st.events ++ Event.cloneAttempt url cfg.Branch tmp :: l := by
  unfold publishBody
  obtain ⟨l1, hl1, -⟩ := cloneOrCreateBranch_events ops url cfg.Branch tmp st
  rcases hc : cloneOrCreateBranch ops url cfg.Branch tmp st with ⟨rc, stA⟩
  rw [hc] at hl1
  dsimp only at hl1
  cases rc with
  | error e => exact ⟨l1, by simp [hc, hl1]⟩
  | ok repo =>
    cases ops.worktreeRes with
    | error e => exact ⟨l1, by simp [hc, hl1]⟩
    | ok u =>
      obtain ⟨l2, hl2, -⟩ := cleanWorkingTree_events o tmp stA
      rcases hcl : cleanWorkingTree o tmp stA with ⟨rcl, stB⟩
      rw [hcl] at hl2
      dsimp only at hl2
      cases rcl with
      | error e => exact ⟨l1 ++ l2, by simp [hc, hcl, hl2, hl1]⟩
      | ok u2 =>
        obtain ⟨l3, hl3, -⟩ := copyDirectory_events o cfg.Folder tmp stB
        rcases hcp : copyDirectory o cfg.Folder tmp stB with ⟨rcp, stC⟩
        rw [hcp] at hl3
        dsimp only at hl3
        cases rcp with
        | error e => exact ⟨l1 ++ l2 ++ l3, by simp [hc, hcl, hcp, hl3, hl2, hl1]⟩
        | ok u3 =>
          cases ops.addRes with
          | error e => exact ⟨l1 ++ l2 ++ l3 ++ [.stage], by simp [hc, hcl, hcp, hl3, hl2, hl1]⟩
          | ok u4 =>
            cases ops.statusRes with
            | error e => exact ⟨l1 ++ l2 ++ l3 ++ [.stage], by simp [hc, hcl, hcp, hl3, hl2, hl1]⟩
            | ok isClean =>
              cases isClean with
              | true => exact ⟨l1 ++ l2 ++ l3 ++ [.stage], by simp [hc, hcl, hcp, hl3, hl2, hl1]⟩
              | false =>
                cases ops.commitRes with
                | error e =>
                  exact ⟨l1 ++ l2 ++ l3 ++ [.stage], by simp [hc, hcl, hcp, hl3, hl2, hl1]⟩
                | ok h =>
                  cases ops.pushRes with
                  | error e =>
                    exact ⟨l1 ++ l2 ++ l3 ++ [.stage, .commit, .push],
                      by simp [hc, hcl, hcp, hl3, hl2, hl1]⟩
                  | ok u5 =>
                    exact ⟨l1 ++ l2 ++ l3 ++ [.stage, .commit, .push],
                      by simp [hc, hcl, hcp, hl3, hl2, hl1]⟩

/-- C4: when an explicit repository identifier is configured the publish
uses it; when it is empty the ambient current-repository value from the
environment is used instead; when neither is present the publish fails
with the state fully untouched - no temporary directory, no event, no
network attempt. -/
theorem publish_repo_resolution (ops : GitOps) (o : Oracle) (env : OsEnv)
    (cfg : Config) (st0 : PubState) :
    (cfg.Repository = "" → env.githubRepository = "" →
       publishDirectory ops o env cfg st0 = (.error .envNotSet, st0))
    ∧ (∀ tmp fs1, cfg.Repository ≠ "" → ops.mkdirTempRes = .ok tmp →
        mkdirAllP st0.fs tmp 448 = (.ok (), fs1) →
        Event.cloneAttempt (buildURL cfg.Repository) cfg.Branch tmp
          ∈ (publishDirectory ops o env cfg st0).2.events)
    ∧ (∀ tmp fs1 r, cfg.Repository = "" → env.githubRepository = r → r ≠ "" →
        ops.mkdirTempRes = .ok tmp →
        mkdirAllP st0.fs tmp 448 = (.ok (), fs1) →
        Event.cloneAttempt (buildURL r) cfg.Branch tmp
          ∈ (publishDirectory ops o env cfg st0).2.events) := by
  refine ⟨?_, ?_, ?_⟩
  · intro h1 h2
    unfold publishDirectory resolveRepository getCurrentRepository
    simp [h1, h2]
  · intro tmp fs1 hne htmp hmk
    have hres : resolveRepository cfg env = .ok cfg.Repository := by
      simp [resolveRepository, hne]
    unfold publishDirectory
    rw [hres, htmp]
    dsimp only
    rw [hmk]
    dsimp only
    rcases hb : publishBody ops o cfg (buildURL cfg.Repository) tmp
        ⟨fs1, st0.events ++ [.mkdirTemp tmp], st0.out⟩ with ⟨r2, st2⟩
    obtain ⟨l, hl⟩ := publishBody_events ops o cfg (buildURL cfg.Repository) tmp
        ⟨fs1, st0.events ++ [.mkdirTemp tmp], st0.out⟩
    rw [hb] at hl
    dsimp only at hl
    rw [hb]
    dsimp only
    rw [hl]
    simp
  · intro tmp fs1 r h1 h2 hr htmp hmk
    have hres : resolveRepository cfg env = .ok r := by
      simp [resolveRepository, getCurrentRepository, h1, h2, hr]
    unfold publishDirectory
    rw [hres, htmp]
    dsimp only
    rw [hmk]
    dsimp only
    rcases hb : publishBody ops o cfg (buildURL r) tmp
        ⟨fs1, st0.events ++ [.mkdirTemp tmp], st0.out⟩ with ⟨r2, st2⟩
    obtain ⟨l, hl⟩ := publishBody_events ops o cfg (buildURL r) tmp
        ⟨fs1, st0.events ++ [.mkdirTemp tmp], st0.out⟩
    rw [hb] at hl
    dsimp only at hl
    rw [hb]
    dsimp only
    rw [hl]
    simp

/-- Witness for C4: with neither identifier the publish fails untouched;
with an explicit identifier the clone uses its URL; with only the
ambient value the clone uses that one. -/
theorem publish_repo_resolution_witness :
    publishDirectory wOpsClean idealOracle wEnvNone wCfgNoRepo wStData
      = (.error .envNotSet, wStData)
    ∧ Event.cloneAttempt (buildURL "kp/x") "" ["tmp", "pub1"]
        ∈ (publishDirectory wOpsClean idealOracle wEnvAmb wCfg7 wStData).2.events
    ∧ Event.cloneAttempt (buildURL "amb/repo") "rel" ["tmp", "pub1"]
        ∈ (publishDirectory wOpsClean idealOracle wEnvAmb wCfgNoRepo wStData).2.events :=
  ⟨(publish_repo_resolution wOpsClean idealOracle wEnvNone wCfgNoRepo wStData).1 rfl rfl,
   (publish_repo_resolution wOpsClean idealOracle wEnvAmb wCfg7 wStData).2.1
     ["tmp", "pub1"] (mkdirAllP wFsData ["tmp", "pub1"] 448).2 (by decide) rfl rfl,
   (publish_repo_resolution wOpsClean idealOracle wEnvAmb wCfgNoRepo wStData).2.2
     ["tmp", "pub1"] (mkdirAllP wFsData ["tmp", "pub1"] 448).2 "amb/repo"
     rfl rfl (by decide) rfl rfl⟩

/-- C2: in every run whose staged working tree is clean after staging,
publish reports the no-op outcome and stops: it returns success, prints
the no-op notice, creates no commit, performs no push, and the process
exits zero with the final success message. -/
theorem publish_clean_noop (ops : GitOps) (o : Oracle) (env : OsEnv)
    (cfg : Config) (fs0 : Node) (loadRes : Except GErr Config)
    (statF : Path → StatRes)
    {repository : String} {tmp : Path} {fs1 : Node} {r0 : Repo}
    {stA stB stC : PubState}
    (hres : resolveRepository cfg env = .ok repository)
    (htmp : ops.mkdirTempRes = .ok tmp)
    (hmk : mkdirAllP fs0 tmp 448 = (.ok (), fs1))
    (hclone : cloneOrCreateBranch ops (buildURL repository) cfg.Branch tmp
        ⟨fs1, [Event.mkdirTemp tmp], []⟩ = (.ok r0, stA))
    (hwt : ops.worktreeRes = .ok ())
    (hclean : cleanWorkingTree o tmp stA = (.ok (), stB))
    (hcopy : copyDirectory o cfg.Folder tmp stB = (.ok (), stC))
    (hadd : ops.addRes = .ok ())
    (hstatus : ops.statusRes = .ok true)
    (hload : loadRes = .ok cfg)
    (hvalid : statF cfg.Folder ≠ .errNotExist) :
    (publishDirectory ops o env cfg ⟨fs0, [], []⟩).1 = .ok ()
    ∧ "No changes to commit" ∈ (publishDirectory ops o env cfg ⟨fs0, [], []⟩).2.out
    ∧ Event.commit ∉ (publishDirectory ops o env cfg ⟨fs0, [], []⟩).2.events
    ∧ Event.push ∉ (publishDirectory ops o env cfg ⟨fs0, [], []⟩).2.events
    ∧ (mainRun loadRes statF ops o env fs0).exitCode = 0
    ∧ "Successfully published directory to branch"
        ∈ (mainRun loadRes statF ops o env fs0).out
    ∧ "No changes to commit" ∈ (mainRun loadRes statF ops o env fs0).out := by
  have hpub : publishDirectory ops o env cfg ⟨fs0, [], []⟩ =
      (.ok (), ⟨removeAt stC.fs tmp,
                stC.events ++ [Event.stage] ++ [Event.removeAllTemp tmp],
                stC.out ++ ["No changes to commit"]⟩) := by
    unfold publishDirectory
    rw [hres, htmp]
    dsimp only
    rw [hmk]
    dsimp only [List.nil_append]
    unfold publishBody
    rw [hclone]
    dsimp only
    rw [hwt]
    dsimp only
    rw [hclean]
    dsimp only
    rw [hcopy]
    dsimp only
    rw [hadd]
    dsimp only
    rw [hstatus]
    dsimp only
    rw [if_pos rfl]
  obtain ⟨l1, hl1, hshape1⟩ := cloneOrCreateBranch_events ops (buildURL repository)
    cfg.Branch tmp ⟨fs1, [Event.mkdirTemp tmp], []⟩
  rw [hclone] at hl1
  dsimp only at hl1
  obtain ⟨l2, hl2, hfs2⟩ := cleanWorkingTree_events o tmp stA
  rw [hclean] at hl2
  dsimp only at hl2
  obtain ⟨l3, hl3, hfs3⟩ := copyDirectory_events o cfg.Folder tmp stB
  rw [hcopy] at hl3
  dsimp only at hl3
  have hCev : stC.events = (([Event.mkdirTemp tmp]
      ++ (Event.cloneAttempt (buildURL repository) cfg.Branch tmp :: l1)) ++ l2) ++ l3 := by
    rw [hl3, hl2, hl1]
  have hl1n : ∀ x ∈ l1, x ≠ Event.commit ∧ x ≠ Event.push := by
    intro x hx
    rcases hshape1 x hx with h | h | h <;> subst h <;> exact ⟨by simp, by simp⟩
  have hl2n : ∀ x ∈ l2, x ≠ Event.commit ∧ x ≠ Event.push :=
    fun x hx => Event.isFs_ne x (hfs2 x hx)
  have hl3n : ∀ x ∈ l3, x ≠ Event.commit ∧ x ≠ Event.push :=
    fun x hx => Event.isFs_ne x (hfs3 x hx)
  have hCn : ∀ x ∈ stC.events, x ≠ Event.commit ∧ x ≠ Event.push := by
    intro x hx
    rw [hCev] at hx
    rcases List.mem_append.mp hx with hx | hx
    · rcases List.mem_append.mp hx with hx | hx
      · rcases List.mem_append.mp hx with hx | hx
        · rcases List.mem_cons.mp hx with hx | hx
          · subst hx; exact ⟨by simp, by simp⟩
          · exact absurd hx (List.not_mem_nil x)
        · rcases List.mem_cons.mp hx with hx | hx
          · subst hx; exact ⟨by simp, by simp⟩
          · exact hl1n x hx
      · exact hl2n x hx
    · exact hl3n x hx
  have hv : validateConfig statF cfg = .ok () := by
    unfold validateConfig
    cases h : statF cfg.Folder with
    | errNotExist => exact absurd h hvalid
    | found => rfl
    | errOther => rfl
  have hmain : mainRun loadRes statF ops o env fs0 =
      ⟨0, (stC.out ++ ["No changes to commit"])
            ++ ["Successfully published directory to branch"], []⟩ := by
    unfold mainRun
    rw [hload]
    dsimp only
    rw [hv]
    dsimp only
    rw [hpub]
  refine ⟨?_, ?_, ?_, ?_, ?_, ?_, ?_⟩
  · rw [hpub]
  · rw [hpub]; simp
  · rw [hpub]
    intro hmem
    dsimp only at hmem
    rcases List.mem_append.mp hmem with hmem | hmem
    · rcases List.mem_append.mp hmem with hmem | hmem
      · exact (hCn _ hmem).1 rfl
      · simp at hmem
    · simp at hmem
  · rw [hpub]
    intro hmem
    dsimp only at hmem
    rcases List.mem_append.mp hmem with hmem | hmem
    · rcases List.mem_append.mp hmem with hmem | hmem
      · exact (hCn _ hmem).2 rfl
      · simp at hmem
    · simp at hmem
  · rw [hmain]
  · rw [hmain]; simp
  · rw [hmain]; simp

/-- Witness for C2: a fully concrete run in which every step succeeds
and the staged tree is clean. -/
theorem publish_clean_noop_witness :
    (publishDirectory wOpsClean idealOracle wEnvAmb wCfgSite ⟨wFsSite, [], []⟩).1 = .ok ()
    ∧ "No changes to commit"
        ∈ (publishDirectory wOpsClean idealOracle wEnvAmb wCfgSite ⟨wFsSite, [], []⟩).2.out
    ∧ Event.commit
        ∉ (publishDirectory wOpsClean idealOracle wEnvAmb wCfgSite ⟨wFsSite, [], []⟩).2.events
    ∧ Event.push
        ∉ (publishDirectory wOpsClean idealOracle wEnvAmb wCfgSite ⟨wFsSite, [], []⟩).2.events
    ∧ (mainRun (.ok wCfgSite) (fun _ => .found) wOpsClean idealOracle wEnvAmb
        wFsSite).exitCode = 0
    ∧ "Successfully published directory to branch"
        ∈ (mainRun (.ok wCfgSite) (fun _ => .found) wOpsClean idealOracle wEnvAmb wFsSite).out
    ∧ "No changes to commit"
        ∈ (mainRun (.ok wCfgSite) (fun _ => .found) wOpsClean idealOracle wEnvAmb wFsSite).out :=
  publish_clean_noop wOpsClean idealOracle wEnvAmb wCfgSite wFsSite (.ok wCfgSite)
    (fun _ => .found) rfl rfl rfl rfl rfl rfl rfl rfl rfl rfl (by decide)

end PubDir
